import Mathlib

/-!
Verification of the A* pathfinding program in `src/main.rs` (repository
`JuanIWK3/star-p`).

The embedding below is a shallow translation of the Rust source:

* `calculate_distance` models the Rust function of the same name, which
  computes `((x2-x1)^2 + (y2-y1)^2).sqrt().round() as usize`.  For the
  integer inputs that occur here the `f64` computation is exact enough that
  the result is the integer nearest to the true square root, which equals
  `(Nat.sqrt (4*d2) + 1) / 2` (ties at `.5` cannot occur because `√n` is
  never a half-integer for integer `n`).
* `neighbors` models the Rust `neighbors` function (the `(0,0)` offset that
  Rust skips with `continue` is simply absent from the offset list; otherwise
  the offsets are enumerated in the same `dx`-outer / `dy`-inner order).
* The `open_set : BinaryHeap<Node>` is modelled by a `List Node` together
  with `heapPush`/`heapPop`, which replicate the sift-up / sift-down-to-bottom
  algorithm of Rust's `std::collections::BinaryHeap`, including the inverted
  `Ord` instance on `Node` (`a > b ⟺ a.f_cost < b.f_cost`) that the source
  uses to turn the max-heap into a min-heap.
* `HashMap`/`HashSet` are modelled by association lists with
  `lookupC`/`insertC`/`setInsert`; the program only uses point lookups,
  inserts and membership tests, so the hash-table layout is unobservable.
* The `while let Some(current) = open_set.pop()` loop is modelled by the
  fuel-based `aStarGo`; `a_star` supplies fuel `5000`, and a theorem below
  proves that this fuel is never exhausted, so the fuelled function agrees
  with the (terminating) Rust loop.  `reconstruct_path`'s `while let` walk
  is likewise fuelled with `came_from.length + 1`, which suffices because the
  predecessor chain visits distinct keys.
* `Game` models the struct of the interactive variant; the `board` field
  (an 8×8 char array used only by `print_board` for rendering) carries no
  game state and is omitted.
-/

abbrev Coord := Nat × Nat

/-- Chebyshev distance between two grid coordinates. -/
def chebDist (p q : Coord) : Nat :=
  max ((p.1 : Int) - (q.1 : Int)).natAbs ((p.2 : Int) - (q.2 : Int)).natAbs

/-- Executable integer square root: starting from `k`, climb while
`(k+1)² ≤ n` (the fuel always suffices since the root is at most `n`). -/
def isqrtAux (n : Nat) : Nat → Nat → Nat
  | k, 0 => k
  | k, f + 1 => if (k + 1) * (k + 1) ≤ n then isqrtAux n (k + 1) f else k

/-- `⌊√n⌋`, by structural recursion (so that it evaluates in the kernel). -/
def natSqrt (n : Nat) : Nat := isqrtAux n 0 n

/-- Model of Rust `calculate_distance`: the Euclidean distance between the two
points rounded to the nearest integer.  `(natSqrt (4*d2) + 1) / 2` is the
nearest integer to `√d2` (`natSqrt` is the floor square root, proved below). -/
def calculate_distance (point1 point2 : Coord) : Nat :=
  let dx : Int := (point2.1 : Int) - (point1.1 : Int)
  let dy : Int := (point2.2 : Int) - (point1.2 : Int)
  let d2 : Nat := (dx * dx + dy * dy).toNat
  (natSqrt (4 * d2) + 1) / 2

/-- The eight `(dx, dy)` offsets enumerated by the Rust nested loops, in
iteration order, with the `(0,0)` offset (skipped by `continue`) absent. -/
def neighborOffsets : List (Int × Int) :=
  [(-1, -1), (-1, 0), (-1, 1), (0, -1), (0, 1), (1, -1), (1, 0), (1, 1)]

/-- Model of Rust `neighbors`: the 8-connected cells of `point` lying inside
`[0,8) × [0,8)`, in the order the Rust loops push them. -/
def neighbors (point : Coord) : List Coord :=
  neighborOffsets.filterMap (fun d =>
    let new_x : Int := (point.1 : Int) + d.1
    let new_y : Int := (point.2 : Int) + d.2
    if 0 ≤ new_x ∧ new_x < 8 ∧ 0 ≤ new_y ∧ new_y < 8 then
      some (new_x.toNat, new_y.toNat)
    else none)

/-- Model of the Rust `Node` struct pushed onto the `BinaryHeap`. -/
structure Node where
  point : Coord
  g_cost : Nat
  h_cost : Nat
deriving DecidableEq, Repr

/-- `f_cost` as in the source: `g_cost + h_cost`. -/
def Node.f_cost (n : Node) : Nat := n.g_cost + n.h_cost

/-- List indexing with the default node, used to model `Vec` indexing (all
indices used by the heap algorithms are in range). -/
def nthNode (l : List Node) (i : Nat) : Node := l.getD i ⟨(0, 0), 0, 0⟩

/-- Exchange the elements at positions `i` and `j`. -/
def swapAt (l : List Node) (i j : Nat) : List Node :=
  (l.set i (nthNode l j)).set j (nthNode l i)

/-- Rust `BinaryHeap::sift_up` (with `start = 0`, the only value the source
uses).  The derived `Ord` on `Node` is inverted, so the hole moves up while
the element's `f_cost` is strictly smaller than the parent's. -/
def siftUpGo : Nat → List Node → Nat → List Node
  | _, l, 0 => l
  | 0, l, _ + 1 => l
  | f + 1, l, p + 1 =>
    if (nthNode l (p + 1)).f_cost < (nthNode l (p / 2)).f_cost then
      siftUpGo f (swapAt l (p + 1) (p / 2)) (p / 2)
    else l

/-- Rust `BinaryHeap::sift_up`: the fuel `pos` always suffices because the
parent index `(pos - 1) / 2` is strictly smaller than `pos` (see
`siftUp_eq` below for the fuel-free recurrence). -/
def siftUp (l : List Node) (pos : Nat) : List Node := siftUpGo pos l pos

/-- `siftDown` with explicit fuel (structural recursion, so that it evaluates
in the kernel). -/
def siftDownGo : Nat → List Node → Nat → List Node
  | 0, l, pos => siftUp l pos
  | f + 1, l, pos =>
    if 2 * pos + 2 < l.length then
      if (nthNode l (2 * pos + 1)).f_cost ≥ (nthNode l (2 * pos + 2)).f_cost then
        siftDownGo f (swapAt l pos (2 * pos + 2)) (2 * pos + 2)
      else
        siftDownGo f (swapAt l pos (2 * pos + 1)) (2 * pos + 1)
    else if 2 * pos + 2 = l.length then
      siftUp (swapAt l pos (2 * pos + 1)) (2 * pos + 1)
    else
      siftUp l pos

/-- Rust `BinaryHeap::sift_down_to_bottom`: move the hole to the bottom of the
heap along the path of higher-priority (here: smaller `f_cost`) children,
preferring the right child on ties, then sift the element back up.  The fuel
`l.length` always suffices because the child index strictly increases (see
`siftDown_eq` below for the fuel-free recurrence). -/
def siftDown (l : List Node) (pos : Nat) : List Node := siftDownGo l.length l pos

/-- Rust `BinaryHeap::push`. -/
def heapPush (l : List Node) (item : Node) : List Node :=
  siftUp (l ++ [item]) l.length

/-- Rust `BinaryHeap::pop`: remove the last element of the backing vector;
if the heap is still non-empty, swap it with the root and sift down. -/
def heapPop (l : List Node) : Option (Node × List Node) :=
  match l.getLast? with
  | none => none
  | some last =>
    let rest := l.dropLast
    if rest.isEmpty then some (last, [])
    else some (nthNode rest 0, siftDown (rest.set 0 last) 0)

/-- Association-list lookup, modelling `HashMap` lookup / `get`. -/
def lookupC {α : Type} : List (Coord × α) → Coord → Option α
  | [], _ => none
  | e :: t, k => if e.1 = k then some e.2 else lookupC t k

/-- Association-list insert, modelling `HashMap::insert` (overwrite the
existing binding or add a new one). -/
def insertC {α : Type} : List (Coord × α) → Coord → α → List (Coord × α)
  | [], k, v => [(k, v)]
  | e :: t, k, v => if e.1 = k then (k, v) :: t else e :: insertC t k v

/-- Modelling `HashSet::insert` (idempotent). -/
def setInsert (l : List Coord) (c : Coord) : List Coord :=
  if c ∈ l then l else c :: l

/-- The mutable state of one `a_star` invocation. -/
structure AState where
  open_set : List Node
  closed_set : List Coord
  came_from : List (Coord × Coord)
  g_score : List (Coord × Nat)
deriving DecidableEq, Repr

/-- The body of the `for neighbor in neighbors(current.point)` loop.  Note two
quirks reproduced from the source: the `f_score` pushed as the node's
`h_cost` field is `tentative_g_score + calculate_distance(neighbor, goal)`
(so the heap actually orders by `2g + h`), and the values stored in
`g_score` are the integers `tentative_g_score` (the source stores them as
`f64` and casts back with `as usize`, which is exact on these integers). -/
def processNeighbor (goal : Coord) (barriers : List Coord) (cur : Coord)
    (st : AState) (n : Coord) : AState :=
  if n ∈ st.closed_set ∨ n ∈ barriers then st
  else
    let tentative_g_score := (lookupC st.g_score cur).getD 0 + calculate_distance cur n
    let update : Bool :=
      match lookupC st.g_score n with
      | none => true
      | some v => decide (tentative_g_score < v)
    if update then
      { st with
        came_from := insertC st.came_from n cur,
        g_score := insertC st.g_score n tentative_g_score,
        open_set := heapPush st.open_set
          ⟨n, tentative_g_score, tentative_g_score + calculate_distance n goal⟩ }
    else st

/-- The whole neighbor loop of one expansion. -/
def expandPoint (goal : Coord) (barriers : List Coord) (cur : Coord)
    (st : AState) : AState :=
  (neighbors cur).foldl (processNeighbor goal barriers cur) st

/-- Model of Rust `reconstruct_path`'s `while let` walk; the fuel
`came_from.length + 1` used below always suffices because the predecessor
chain visits pairwise-distinct keys (proved via the strictly decreasing
`g_score` values along the chain). -/
def reconstructAux : Nat → List (Coord × Coord) → Coord → List Coord → List Coord
  | 0, _, _, path => path
  | fuel + 1, cf, current, path =>
    match lookupC cf current with
    | none => path
    | some prev => reconstructAux fuel cf prev (path ++ [prev])

/-- Model of Rust `reconstruct_path`. -/
def reconstruct_path (came_from : List (Coord × Coord)) (current : Coord) :
    List Coord :=
  (reconstructAux (came_from.length + 1) came_from current [current]).reverse

/-- One iteration of the `while let Some(current) = open_set.pop()` loop,
in the case where the loop continues (popped node is not the goal):
insert into the closed set and expand the neighbors.  Returns `none` when
the loop would stop at this iteration (empty heap, or goal popped). -/
def stepFn (goal : Coord) (barriers : List Coord) (st : AState) : Option AState :=
  match heapPop st.open_set with
  | none => none
  | some (current, rest) =>
    if current.point = goal then none
    else some (expandPoint goal barriers current.point
      { st with open_set := rest, closed_set := setInsert st.closed_set current.point })

/-- Iterate `stepFn` (used to exhibit concrete reachable loop states). -/
def iterateO (goal : Coord) (barriers : List Coord) : Nat → AState → Option AState
  | 0, st => some st
  | k + 1, st =>
    match stepFn goal barriers st with
    | none => none
    | some st1 => iterateO goal barriers k st1

/-- The fuelled main loop of `a_star`.  `none` means "out of fuel" (which a
theorem below shows never happens at the fuel used by `a_star`);
`some none` is the Rust `None` ("no path"); `some (some p)` is `Some(path)`. -/
def aStarGo (goal : Coord) (barriers : List Coord) :
    Nat → AState → Option (Option (List Coord))
  | 0, _ => none
  | fuel + 1, st =>
    match heapPop st.open_set with
    | none => some none
    | some (current, rest) =>
      if current.point = goal then some (some (reconstruct_path st.came_from goal))
      else aStarGo goal barriers fuel
        (expandPoint goal barriers current.point
          { st with open_set := rest, closed_set := setInsert st.closed_set current.point })

/-- The state set up by `a_star` before the loop. -/
def initState (start goal : Coord) : AState :=
  { open_set := heapPush [] ⟨start, 0, calculate_distance start goal⟩,
    closed_set := [], came_from := [],
    g_score := insertC [] start 0 }

/-- Fuel for the main loop; a theorem below shows the loop always finishes
within it. -/
def aStarFuel : Nat := 5000

/-- Model of Rust `a_star`. -/
def a_star (start goal : Coord) (barriers : List Coord) :
    Option (Option (List Coord)) :=
  aStarGo goal barriers aStarFuel (initState start goal)

/-- Model of the `Game` struct.  The `board` field of the source (an 8×8 char
array consumed only by `print_board` for rendering) carries no game state and
is omitted; all other fields are kept. -/
structure Game where
  player : Coord
  barriers : List Coord
  fruit : Coord
  enemy : Coord
  destination : Coord
deriving DecidableEq, Repr

/-- `Game::new`. -/
def Game.new : Game :=
  { player := (0, 0), barriers := [(0, 2), (1, 2), (2, 2), (3, 2)],
    fruit := (3, 0), enemy := (7, 7), destination := (0, 7) }

/-- `Game::get_direction` (a pure function of the player position and the
input token; the Rust `&mut self` receiver never mutates). -/
def Game.get_direction (g : Game) (direction : String) : Coord :=
  let x := g.player.1
  let y := g.player.2
  if direction = "u" then (if x > 0 then (x - 1, y) else (x, y))
  else if direction = "d" then (if x < 7 then (x + 1, y) else (x, y))
  else if direction = "l" then (if y > 0 then (x, y - 1) else (x, y))
  else if direction = "r" then (if y < 7 then (x, y + 1) else (x, y))
  else if direction = "ul" then (if x > 0 ∧ y > 0 then (x - 1, y - 1) else (x, y))
  else if direction = "ur" then (if x > 0 ∧ y < 7 then (x - 1, y + 1) else (x, y))
  else if direction = "dl" then (if x < 7 ∧ y > 0 then (x + 1, y - 1) else (x, y))
  else if direction = "dr" then (if x < 7 ∧ y < 7 then (x + 1, y + 1) else (x, y))
  else (x, y)

/-- `Game::check_barrier`. -/
def Game.check_barrier (g : Game) (pos : Coord) : Bool :=
  decide (pos ∈ g.barriers)

/-- `Game::move_player`. -/
def Game.move_player (g : Game) (direction : String) : Game :=
  let new_player := g.get_direction direction
  if ¬ g.check_barrier new_player then { g with player := new_player } else g

/-!  Specification-side definitions: the exact Euclidean metric of the claims,
valid 8-connected paths, the shortest-distance predicate, reachability, and
the loop invariant used in the proofs. -/

/-- Exact Euclidean distance between two grid coordinates (the quantity the
spec calls "Euclidean distance"; the source rounds it). -/
noncomputable def euclidDist (p q : Coord) : ℝ :=
  Real.sqrt ((((p.1 : ℝ) - (q.1 : ℝ)) ^ 2) + (((p.2 : ℝ) - (q.2 : ℝ)) ^ 2))

/-- Total exact Euclidean length of a path: the sum of the Euclidean
distances between consecutive coordinates. -/
noncomputable def pathLength : List Coord → ℝ
  | [] => 0
  | [_] => 0
  | a :: b :: t => euclidDist a b + pathLength (b :: t)

/-- The octile metric `(max - min) + min * √2` on a pair of coordinate
differences; this is the length of a shortest 8-connected path realising
those differences. -/
noncomputable def octReal (dx dy : Nat) : ℝ :=
  ((max dx dy - min dx dy : Nat) : ℝ) + ((min dx dy : Nat) : ℝ) * Real.sqrt 2

/-- The true shortest 8-connected Euclidean distance between two grid
coordinates (proved below to be the minimum of `pathLength` over valid
paths). -/
noncomputable def octileDist (p q : Coord) : ℝ :=
  octReal ((p.1 : Int) - (q.1 : Int)).natAbs ((p.2 : Int) - (q.2 : Int)).natAbs

/-- A valid 8-connected path on the 8×8 grid from `s` to `g`: starts at `s`,
ends at `g`, stays on the grid, and every consecutive pair is at Chebyshev
distance exactly 1. -/
def ValidPath (p : List Coord) (s g : Coord) : Prop :=
  p.head? = some s ∧ p.getLast? = some g ∧
  List.Chain' (fun a b => chebDist a b = 1) p ∧
  ∀ c ∈ p, c.1 < 8 ∧ c.2 < 8

/-- `r` is the length of a shortest valid 8-connected path from `s` to `g`
(on the obstacle-free grid). -/
def IsShortest8 (s g : Coord) (r : ℝ) : Prop :=
  (∃ p, ValidPath p s g ∧ pathLength p = r) ∧
  ∀ p, ValidPath p s g → r ≤ pathLength p

/-- `Reachable b s c`: coordinate `c` can be reached from `s` by 8-connected
moves that never step onto a coordinate of the barrier list `b` (the start
itself may lie on a barrier, matching the search, which never tests `start`
against the barriers). -/
inductive Reachable (b : List Coord) (s : Coord) : Coord → Prop
  | refl : Reachable b s s
  | step {c n : Coord} : Reachable b s c → n ∈ neighbors c → n ∉ b →
      Reachable b s n

/-- One coordinate step of the move-toward-the-goal walk. -/
def stepToward (a b : Nat) : Nat :=
  if a < b then a + 1 else if b < a then a - 1 else a

/-- A straight/diagonal greedy path from `s` to `g`; it realises the octile
distance exactly. -/
def pathTo (s g : Coord) : List Coord :=
  if s = g then [s]
  else s :: pathTo (stepToward s.1 g.1, stepToward s.2 g.2) g
termination_by chebDist s g
decreasing_by
  rcases s with ⟨s1, s2⟩
  rcases g with ⟨g1, g2⟩
  simp only [chebDist, stepToward, Prod.mk.injEq, not_and] at *
  repeat' split
  all_goals omega

/-- `Reaches goal barriers st st1`: the search loop transforms state `st`
into state `st1` in zero or more non-final iterations. -/
def Reaches (goal : Coord) (barriers : List Coord) : AState → AState → Prop :=
  Relation.ReflTransGen (fun a b => stepFn goal barriers a = some b)

/-- The 64 cells of the grid (used only for the termination measure). -/
def gridCells : List Coord := (List.range 64).map (fun i => (i / 8, i % 8))

/-- Remaining "capacity" of a key: its current `g_score` if present
(always ≤ 65), else 66.  Every `g_score` insert strictly decreases the
capacity of its key. -/
def capOf (g : List (Coord × Nat)) (p : Coord) : Nat :=
  match lookupC g p with
  | some v => v
  | none => 66

/-- Termination measure of the search loop: every iteration strictly
decreases it. -/
def measureM (st : AState) : Nat :=
  st.open_set.length + (gridCells.map (capOf st.g_score)).sum

/-- The invariant maintained by the `a_star` loop.  `start`, `goal` and
`barriers` are the arguments of the enclosing `a_star` call. -/
structure AInv (start goal : Coord) (barriers : List Coord) (st : AState) : Prop where
  /-- The start's score is 0 forever (it can never be overwritten, since
  overwrites are strict decreases). -/
  gStart : lookupC st.g_score start = some 0
  /-- `g_score` is a map: its keys are pairwise distinct. -/
  gNodup : (st.g_score.map Prod.fst).Nodup
  /-- `came_from` is a map: its keys are pairwise distinct. -/
  cfNodup : (st.came_from.map Prod.fst).Nodup
  /-- Every `g_score` key is the start or a grid cell. -/
  gKeys : ∀ p ∈ st.g_score.map Prod.fst, p = start ∨ (p.1 < 8 ∧ p.2 < 8)
  /-- Every stored score is at most the number of stored keys. -/
  gBound : ∀ e ∈ st.g_score, e.2 ≤ st.g_score.length
  /-- Every node in the open heap has a `g_score` entry (so the source's
  `g_score[&current.point]` indexing cannot panic). -/
  openG : ∀ nd ∈ st.open_set, (lookupC st.g_score nd.point).isSome
  /-- Every scored coordinate not yet closed is represented in the heap. -/
  openCover : ∀ p ∈ st.g_score.map Prod.fst, p ∉ st.closed_set →
    ∃ nd ∈ st.open_set, nd.point = p
  /-- Closed coordinates have `g_score` entries. -/
  closedG : ∀ c ∈ st.closed_set, (lookupC st.g_score c).isSome
  /-- A closed coordinate has offered its best score to every unblocked,
  unclosed neighbor. -/
  closedExp : ∀ c ∈ st.closed_set, ∀ n ∈ neighbors c, n ∉ barriers →
    n ∉ st.closed_set →
    ∃ v, lookupC st.g_score n = some v ∧
      v ≤ (lookupC st.g_score c).getD 0 + calculate_distance c n
  /-- Every predecessor entry `(n, c)` records an unblocked neighbor step
  `c → n` whose endpoints are scored with strictly increasing scores
  (whence the predecessor graph is acyclic). -/
  cameProps : ∀ e ∈ st.came_from, e.1 ≠ start ∧ e.1 ∉ barriers ∧
    e.1 ∈ neighbors e.2 ∧
    ∃ vn vc, lookupC st.g_score e.1 = some vn ∧
      lookupC st.g_score e.2 = some vc ∧ vc < vn
  /-- Every scored coordinate other than the start has a predecessor. -/
  gCame : ∀ p ∈ st.g_score.map Prod.fst, p ≠ start →
    (lookupC st.came_from p).isSome
  /-- The goal is never closed (the loop returns before closing it). -/
  goalClosed : goal ∉ st.closed_set

/-- The invariant holding at every intermediate state of the neighbor loop of
one expansion of `cur` (after `cur` has been inserted into the closed set).
It is `AInv` with the closed-expansion obligation restricted to the
previously closed coordinates; the obligation for `cur` itself is
established by the loop. -/
structure MidInv (start goal cur : Coord) (barriers : List Coord) (st : AState) : Prop where
  gStart : lookupC st.g_score start = some 0
  gNodup : (st.g_score.map Prod.fst).Nodup
  cfNodup : (st.came_from.map Prod.fst).Nodup
  gKeys : ∀ p ∈ st.g_score.map Prod.fst, p = start ∨ (p.1 < 8 ∧ p.2 < 8)
  gBound : ∀ e ∈ st.g_score, e.2 ≤ st.g_score.length
  curG : (lookupC st.g_score cur).isSome
  openG : ∀ nd ∈ st.open_set, (lookupC st.g_score nd.point).isSome
  openCover : ∀ p ∈ st.g_score.map Prod.fst, p ∉ st.closed_set →
    ∃ nd ∈ st.open_set, nd.point = p
  closedG : ∀ c ∈ st.closed_set, (lookupC st.g_score c).isSome
  closedExpOld : ∀ c ∈ st.closed_set, c ≠ cur → ∀ n ∈ neighbors c, n ∉ barriers →
    n ∉ st.closed_set →
    ∃ v, lookupC st.g_score n = some v ∧
      v ≤ (lookupC st.g_score c).getD 0 + calculate_distance c n
  cameProps : ∀ e ∈ st.came_from, e.1 ≠ start ∧ e.1 ∉ barriers ∧
    e.1 ∈ neighbors e.2 ∧
    ∃ vn vc, lookupC st.g_score e.1 = some vn ∧
      lookupC st.g_score e.2 = some vc ∧ vc < vn
  gCame : ∀ p ∈ st.g_score.map Prod.fst, p ≠ start →
    (lookupC st.came_from p).isSome
  goalClosed : goal ∉ st.closed_set

/-- A concrete mid-run state of `a_star (1, 3) (4, 0) [(0, 3), (2, 2)]`
(13 loop iterations in): at this state the heap's top coordinate is already
closed, exhibiting a re-pop of a closed coordinate. -/
def repopState : AState :=
  (iterateO (4, 0) [(0, 3), (2, 2)] 13 (initState (1, 3) (4, 0))).getD ⟨[], [], [], []⟩

/-- The node popped at the 14th iteration of that run. -/
def repopNode : Node := ((heapPop repopState.open_set).getD (⟨(0, 0), 0, 0⟩, [])).1

/-- The heap left after that pop. -/
def repopRest : List Node := ((heapPop repopState.open_set).getD (⟨(0, 0), 0, 0⟩, [])).2

theorem swapAt_length (l : List Node) (i j : Nat) :
    (swapAt l i j).length = l.length := by
  simp [swapAt]

/-!  Basic lemmas about the association-list maps and sets. -/

theorem lookupC_insertC_self {α : Type} (m : List (Coord × α)) (k : Coord) (v : α) :
    lookupC (insertC m k v) k = some v := by
  induction m with
  | nil => simp [insertC, lookupC]
  | cons e t ih =>
    by_cases h : e.1 = k
    · simp [insertC, h, lookupC]
    · simp [insertC, h, lookupC, ih]

theorem lookupC_insertC_ne {α : Type} {m : List (Coord × α)} {k k1 : Coord} {v : α}
    (h : k1 ≠ k) : lookupC (insertC m k v) k1 = lookupC m k1 := by
  induction m with
  | nil =>
    simp only [insertC, lookupC]
    rw [if_neg (fun h1 : k = k1 => h h1.symm)]
  | cons e t ih =>
    by_cases he : e.1 = k
    · simp only [insertC, if_pos he, lookupC]
      rw [if_neg (fun h1 : k = k1 => h h1.symm), if_neg (by rw [he]; exact fun h1 => h h1.symm)]
    · simp only [insertC, if_neg he, lookupC, ih]

theorem lookupC_mem {α : Type} {m : List (Coord × α)} {k : Coord} {v : α}
    (h : lookupC m k = some v) : (k, v) ∈ m := by
  induction m with
  | nil => simp [lookupC] at h
  | cons e t ih =>
    simp only [lookupC] at h
    split at h
    · rename_i he
      obtain ⟨e1, e2⟩ := e
      simp only at he h
      subst he
      obtain rfl := Option.some.inj h
      exact List.mem_cons_self _ _
    · exact List.mem_cons_of_mem _ (ih h)

theorem lookupC_isSome_iff {α : Type} (m : List (Coord × α)) (k : Coord) :
    (lookupC m k).isSome ↔ k ∈ m.map Prod.fst := by
  induction m with
  | nil => simp [lookupC]
  | cons e t ih =>
    by_cases he : e.1 = k
    · simp [lookupC, he]
    · simp only [lookupC, if_neg he, List.map_cons, List.mem_cons, ih]
      constructor
      · exact fun hm => Or.inr hm
      · rintro (rfl | hm)
        · exact absurd rfl he
        · exact hm

theorem lookupC_eq_none_iff {α : Type} (m : List (Coord × α)) (k : Coord) :
    lookupC m k = none ↔ k ∉ m.map Prod.fst := by
  rw [← lookupC_isSome_iff, Option.isSome_iff_ne_none]
  tauto

theorem insertC_keys_mem {α : Type} (m : List (Coord × α)) (k : Coord) (v : α) (p : Coord) :
    p ∈ (insertC m k v).map Prod.fst ↔ p = k ∨ p ∈ m.map Prod.fst := by
  induction m with
  | nil => simp [insertC]
  | cons e t ih =>
    by_cases he : e.1 = k
    · simp only [insertC, if_pos he, List.map_cons, List.mem_cons, ih]
      rw [← he]
      tauto
    · simp only [insertC, if_neg he, List.map_cons, List.mem_cons, ih]
      tauto

theorem insertC_length_of_mem {α : Type} {m : List (Coord × α)} {k : Coord} (v : α)
    (h : k ∈ m.map Prod.fst) : (insertC m k v).length = m.length := by
  induction m with
  | nil => simp at h
  | cons e t ih =>
    by_cases he : e.1 = k
    · simp [insertC, he]
    · simp only [List.map_cons, List.mem_cons] at h
      rcases h with h | h
      · exact absurd h.symm he
      · simp [insertC, he, ih h]

theorem insertC_length_of_not_mem {α : Type} {m : List (Coord × α)} {k : Coord} (v : α)
    (h : k ∉ m.map Prod.fst) : (insertC m k v).length = m.length + 1 := by
  induction m with
  | nil => simp [insertC]
  | cons e t ih =>
    simp only [List.map_cons, List.mem_cons] at h
    push_neg at h
    have he : e.1 ≠ k := fun hc => h.1 hc.symm
    simp [insertC, he, ih h.2]

theorem insertC_nodup {α : Type} {m : List (Coord × α)} (k : Coord) (v : α)
    (h : (m.map Prod.fst).Nodup) : ((insertC m k v).map Prod.fst).Nodup := by
  induction m with
  | nil => simp [insertC]
  | cons e t ih =>
    simp only [List.map_cons, List.nodup_cons] at h
    by_cases he : e.1 = k
    · simp only [insertC, if_pos he, List.map_cons, List.nodup_cons]
      rw [← he]
      exact h
    · simp only [insertC, if_neg he, List.map_cons, List.nodup_cons]
      refine ⟨?_, ih h.2⟩
      rw [insertC_keys_mem]
      rintro (hc | hc)
      · exact he hc
      · exact h.1 hc

theorem insertC_entries {α : Type} {m : List (Coord × α)} {k : Coord} {v : α} {e1 : Coord × α}
    (h : e1 ∈ insertC m k v) : e1 = (k, v) ∨ e1 ∈ m := by
  induction m with
  | nil => simpa [insertC] using h
  | cons e t ih =>
    by_cases he : e.1 = k
    · simp only [insertC, if_pos he, List.mem_cons] at h
      tauto
    · simp only [insertC, if_neg he, List.mem_cons] at h
      rcases h with h | h
      · right
        rw [h]
        exact List.mem_cons_self _ _
      · rcases ih h with h1 | h1
        · exact Or.inl h1
        · exact Or.inr (List.mem_cons_of_mem _ h1)

theorem mem_setInsert (l : List Coord) (c x : Coord) :
    x ∈ setInsert l c ↔ x = c ∨ x ∈ l := by
  by_cases h : c ∈ l
  · simp only [setInsert, if_pos h]
    constructor
    · tauto
    · rintro (rfl | hx) <;> [exact h; exact hx]
  · simp [setInsert, if_neg h]

theorem setInsert_subset (l : List Coord) (c : Coord) : l ⊆ setInsert l c := by
  intro x hx
  rw [mem_setInsert]
  exact Or.inr hx

theorem mem_setInsert_self (l : List Coord) (c : Coord) : c ∈ setInsert l c := by
  rw [mem_setInsert]
  exact Or.inl rfl

/-!  Lemmas about `neighbors` and `calculate_distance`. -/

theorem isqrtAux_spec (n : Nat) : ∀ (f k : Nat), k * k ≤ n →
    (isqrtAux n k f) * (isqrtAux n k f) ≤ n ∧
    (n < (isqrtAux n k f + 1) * (isqrtAux n k f + 1) ∨ isqrtAux n k f = k + f) := by
  intro f
  induction f with
  | zero =>
    intro k hk
    exact ⟨hk, Or.inr rfl⟩
  | succ f ih =>
    intro k hk
    simp only [isqrtAux]
    by_cases h : (k + 1) * (k + 1) ≤ n
    · rw [if_pos h]
      obtain ⟨h1, h2⟩ := ih (k + 1) h
      refine ⟨h1, ?_⟩
      rcases h2 with h2 | h2
      · exact Or.inl h2
      · exact Or.inr (by omega)
    · rw [if_neg h]
      exact ⟨hk, Or.inl (by omega)⟩

theorem natSqrt_le (n : Nat) : natSqrt n * natSqrt n ≤ n :=
  (isqrtAux_spec n n 0 (by omega)).1

theorem natSqrt_lt_succ (n : Nat) : n < (natSqrt n + 1) * (natSqrt n + 1) := by
  rcases (isqrtAux_spec n n 0 (by omega)).2 with h | h
  · exact h
  · have hne : natSqrt n = n := by
      rw [natSqrt, h]
      omega
    rw [hne]
    nlinarith

theorem calculate_distance_def (p q : Coord) :
    calculate_distance p q =
      (natSqrt (4 * ((((q.1 : Int) - (p.1 : Int)) * ((q.1 : Int) - (p.1 : Int)) +
        ((q.2 : Int) - (p.2 : Int)) * ((q.2 : Int) - (p.2 : Int))).toNat)) + 1) / 2 := rfl

set_option maxHeartbeats 1000000 in
theorem neighbors_iff (p q : Coord) :
    q ∈ neighbors p ↔ (q.1 < 8 ∧ q.2 < 8 ∧ chebDist p q = 1) := by
  rcases p with ⟨x, y⟩
  rcases q with ⟨a, b⟩
  simp only [neighbors, List.mem_filterMap]
  constructor
  · rintro ⟨⟨dx, dy⟩, hd, h⟩
    simp only [neighborOffsets, List.mem_cons, List.not_mem_nil, or_false,
      Prod.mk.injEq] at hd
    split at h
    · rename_i hc
      simp only [Option.some.injEq, Prod.mk.injEq] at h
      obtain ⟨ha, hb⟩ := h
      simp only [chebDist]
      rcases hd with ⟨h1, h2⟩ | ⟨h1, h2⟩ | ⟨h1, h2⟩ | ⟨h1, h2⟩ | ⟨h1, h2⟩ | ⟨h1, h2⟩ |
        ⟨h1, h2⟩ | ⟨h1, h2⟩ <;> subst h1 <;> subst h2 <;> omega
    · simp at h
  · rintro ⟨h1, h2, h3⟩
    simp only [chebDist] at h3
    refine ⟨((a : Int) - (x : Int), (b : Int) - (y : Int)), ?_, ?_⟩
    · simp only [neighborOffsets, List.mem_cons, List.not_mem_nil, or_false,
        Prod.mk.injEq]
      omega
    · show (if (0:Int) ≤ (x : Int) + ((a : Int) - (x : Int)) ∧
          (x : Int) + ((a : Int) - (x : Int)) < 8 ∧
          (0:Int) ≤ (y : Int) + ((b : Int) - (y : Int)) ∧
          (y : Int) + ((b : Int) - (y : Int)) < 8 then
          some (((x : Int) + ((a : Int) - (x : Int))).toNat,
            ((y : Int) + ((b : Int) - (y : Int))).toNat)
        else none) = some (a, b)
      rw [if_pos (by omega)]
      simp only [Option.some.injEq, Prod.mk.injEq]
      omega

theorem neighbors_grid {p q : Coord} (h : q ∈ neighbors p) : q.1 < 8 ∧ q.2 < 8 := by
  have := (neighbors_iff p q).mp h
  exact ⟨this.1, this.2.1⟩

theorem neighbors_cheb {p q : Coord} (h : q ∈ neighbors p) : chebDist p q = 1 :=
  ((neighbors_iff p q).mp h).2.2

theorem not_self_mem_neighbors (p : Coord) : p ∉ neighbors p := by
  intro h
  have := neighbors_cheb h
  simp [chebDist] at this

theorem neighbors_nodup (p : Coord) : (neighbors p).Nodup := by
  refine List.Nodup.filterMap ?_ (by decide)
  rintro ⟨dx, dy⟩ ⟨dx1, dy1⟩ ⟨a, b⟩ h h1
  simp only [Option.mem_def] at h h1
  split at h
  · rename_i hc
    simp only [Option.some.injEq, Prod.mk.injEq] at h
    split at h1
    · rename_i hc1
      simp only [Option.some.injEq, Prod.mk.injEq] at h1
      have e1 : dx = dx1 := by omega
      have e2 : dy = dy1 := by omega
      rw [e1, e2]
    · simp at h1
  · simp at h

theorem calculate_distance_one {p q : Coord} (h : chebDist p q = 1) :
    calculate_distance p q = 1 := by
  rcases p with ⟨x, y⟩
  rcases q with ⟨a, b⟩
  simp only [chebDist] at h
  rw [calculate_distance_def]
  simp only
  have hdx : (a : Int) - x = -1 ∨ (a : Int) - x = 0 ∨ (a : Int) - x = 1 := by omega
  have hdy : (b : Int) - y = -1 ∨ (b : Int) - y = 0 ∨ (b : Int) - y = 1 := by omega
  have hne : ¬(((a : Int) - x) = 0 ∧ ((b : Int) - y) = 0) := by omega
  have key : (((a : Int) - x) * ((a : Int) - x) +
      ((b : Int) - y) * ((b : Int) - y)).toNat = 1 ∨
      (((a : Int) - x) * ((a : Int) - x) +
      ((b : Int) - y) * ((b : Int) - y)).toNat = 2 := by
    rcases hdx with h1 | h1 | h1 <;> rcases hdy with h2 | h2 | h2 <;>
      first
        | (rw [h1, h2]; decide)
        | exact absurd ⟨h1, h2⟩ hne
  rcases key with hk | hk <;> rw [hk] <;> decide

theorem calculate_distance_neighbor {p q : Coord} (h : q ∈ neighbors p) :
    calculate_distance p q = 1 :=
  calculate_distance_one (neighbors_cheb h)

/-!  Permutation lemmas for the binary-heap model: `heapPush` and `heapPop`
only rearrange the heap contents. -/

theorem set_nthNode_self : ∀ (l : List Node) (i : Nat), l.set i (nthNode l i) = l := by
  intro l
  induction l with
  | nil => intro i; simp
  | cons a t ih =>
    intro i
    cases i with
    | zero => simp [nthNode]
    | succ k =>
      have hn : nthNode (a :: t) (k + 1) = nthNode t k := rfl
      rw [List.set_cons_succ, hn, ih k]

theorem nthNode_cons_set_perm : ∀ (t : List Node) (m : Nat) (x : Node), m < t.length →
    (nthNode t m :: t.set m x).Perm (x :: t) := by
  intro t
  induction t with
  | nil => intro m x hm; simp at hm
  | cons a t' ih =>
    intro m x hm
    cases m with
    | zero =>
      simp only [nthNode, List.getD_cons_zero, List.set_cons_zero]
      exact List.Perm.swap x a t'
    | succ k =>
      simp only [nthNode, List.getD_cons_succ, List.set_cons_succ]
      have h1 : (nthNode t' k :: a :: t'.set k x).Perm (a :: nthNode t' k :: t'.set k x) :=
        List.Perm.swap a (nthNode t' k) _
      have h2 : (a :: nthNode t' k :: t'.set k x).Perm (a :: x :: t') :=
        List.Perm.cons a (ih k x (by simpa using hm))
      have h3 : (a :: x :: t').Perm (x :: a :: t') := List.Perm.swap x a t'
      exact (h1.trans h2).trans h3

theorem swapAt_perm_lt : ∀ (l : List Node) (i j : Nat), i < j → j < l.length →
    (swapAt l i j).Perm l := by
  intro l
  induction l with
  | nil => intro i j hij hj; simp at hj
  | cons a t ih =>
    intro i j hij hj
    cases i with
    | zero =>
      cases j with
      | zero => omega
      | succ k =>
        simp only [swapAt, nthNode, List.getD_cons_succ, List.getD_cons_zero,
          List.set_cons_zero, List.set_cons_succ]
        exact nthNode_cons_set_perm t k a (by simpa using hj)
    | succ m =>
      cases j with
      | zero => omega
      | succ k =>
        simp only [swapAt, nthNode, List.getD_cons_succ, List.set_cons_succ]
        exact List.Perm.cons a (ih m k (by omega) (by simpa using hj))

theorem swapAt_perm (l : List Node) {i j : Nat} (hi : i < l.length) (hj : j < l.length) :
    (swapAt l i j).Perm l := by
  rcases Nat.lt_trichotomy i j with h | h | h
  · exact swapAt_perm_lt l i j h hj
  · subst h
    rw [swapAt, set_nthNode_self]
    rw [set_nthNode_self]
  · rw [swapAt, List.set_comm _ _ _ (by omega)]
    exact swapAt_perm_lt l j i h hi

theorem siftUpGo_succ : ∀ (f : Nat) (l : List Node) (pos : Nat), pos ≤ f →
    siftUpGo (f + 1) l pos = siftUpGo f l pos := by
  intro f
  induction f with
  | zero =>
    intro l pos h
    have hp : pos = 0 := by omega
    subst hp
    rfl
  | succ f ih =>
    intro l pos h
    rcases pos with _ | p
    · rfl
    · simp only [siftUpGo]
      split
      · exact ih _ _ (by omega)
      · rfl

theorem siftUpGo_add (k f : Nat) (l : List Node) (pos : Nat) (h : pos ≤ f) :
    siftUpGo (f + k) l pos = siftUpGo f l pos := by
  induction k with
  | zero => rfl
  | succ k ih =>
    have he : f + (k + 1) = (f + k) + 1 := by omega
    rw [he, siftUpGo_succ (f + k) l pos (by omega), ih]

theorem siftUpGo_eq_of_le (f g : Nat) (l : List Node) (pos : Nat)
    (hf : pos ≤ f) (hg : pos ≤ g) : siftUpGo f l pos = siftUpGo g l pos := by
  rcases Nat.le_total f g with h | h
  · have he : g = f + (g - f) := by omega
    rw [he, siftUpGo_add (g - f) f l pos hf]
  · have he : f = g + (f - g) := by omega
    rw [he, siftUpGo_add (f - g) g l pos hg]

theorem siftUp_eq (l : List Node) (pos : Nat) :
    siftUp l pos =
      if pos = 0 then l
      else if (nthNode l pos).f_cost < (nthNode l ((pos - 1) / 2)).f_cost then
        siftUp (swapAt l pos ((pos - 1) / 2)) ((pos - 1) / 2)
      else l := by
  rcases pos with _ | p
  · rfl
  · rw [if_neg p.succ_ne_zero]
    show siftUpGo (p + 1) l (p + 1) = _
    simp only [siftUpGo, Nat.add_sub_cancel]
    split
    · exact siftUpGo_eq_of_le p (p / 2) (swapAt l (p + 1) (p / 2)) (p / 2)
        (by omega) (le_refl _)
    · rfl

theorem siftDownGo_succ : ∀ (f : Nat) (l : List Node) (pos : Nat),
    l.length - pos ≤ f → siftDownGo (f + 1) l pos = siftDownGo f l pos := by
  intro f
  induction f with
  | zero =>
    intro l pos h
    simp only [siftDownGo]
    rw [if_neg (by omega), if_neg (by omega)]
  | succ f ih =>
    intro l pos h
    simp only [siftDownGo]
    by_cases h1 : 2 * pos + 2 < l.length
    · rw [if_pos h1, if_pos h1]
      have hl2 : (swapAt l pos (2 * pos + 2)).length = l.length := by
        simp [swapAt]
      have hl1 : (swapAt l pos (2 * pos + 1)).length = l.length := by
        simp [swapAt]
      split
      · exact ih _ _ (by rw [hl2]; omega)
      · exact ih _ _ (by rw [hl1]; omega)
    · rw [if_neg h1, if_neg h1]

theorem siftDownGo_add (k f : Nat) (l : List Node) (pos : Nat)
    (h : l.length - pos ≤ f) :
    siftDownGo (f + k) l pos = siftDownGo f l pos := by
  induction k with
  | zero => rfl
  | succ k ih =>
    have he : f + (k + 1) = (f + k) + 1 := by omega
    rw [he, siftDownGo_succ (f + k) l pos (by omega), ih]

theorem siftDownGo_eq_of_le (f g : Nat) (l : List Node) (pos : Nat)
    (hf : l.length - pos ≤ f) (hg : l.length - pos ≤ g) :
    siftDownGo f l pos = siftDownGo g l pos := by
  rcases Nat.le_total f g with h | h
  · have he : g = f + (g - f) := by omega
    rw [he, siftDownGo_add (g - f) f l pos hf]
  · have he : f = g + (f - g) := by omega
    rw [he, siftDownGo_add (f - g) g l pos hg]

theorem siftDown_eq (l : List Node) (pos : Nat) :
    siftDown l pos =
      if 2 * pos + 2 < l.length then
        if (nthNode l (2 * pos + 1)).f_cost ≥ (nthNode l (2 * pos + 2)).f_cost then
          siftDown (swapAt l pos (2 * pos + 2)) (2 * pos + 2)
        else
          siftDown (swapAt l pos (2 * pos + 1)) (2 * pos + 1)
      else if 2 * pos + 2 = l.length then
        siftUp (swapAt l pos (2 * pos + 1)) (2 * pos + 1)
      else
        siftUp l pos := by
  show siftDownGo l.length l pos = _
  rcases hn : l.length with _ | n
  · simp only [siftDownGo]
    rw [if_neg (by omega), if_neg (by omega)]
  · simp only [siftDownGo, hn]
    by_cases h1 : 2 * pos + 2 < n + 1
    · rw [if_pos h1, if_pos h1]
      have hl2 : (swapAt l pos (2 * pos + 2)).length = n + 1 := by
        simp [swapAt, hn]
      have hl1 : (swapAt l pos (2 * pos + 1)).length = n + 1 := by
        simp [swapAt, hn]
      split
      · exact siftDownGo_eq_of_le n (swapAt l pos (2 * pos + 2)).length
          (swapAt l pos (2 * pos + 2)) (2 * pos + 2)
          (by rw [hl2]; omega) (by omega)
      · exact siftDownGo_eq_of_le n (swapAt l pos (2 * pos + 1)).length
          (swapAt l pos (2 * pos + 1)) (2 * pos + 1)
          (by rw [hl1]; omega) (by omega)
    · rw [if_neg h1, if_neg h1]

theorem siftUp_perm : ∀ (pos : Nat) (l : List Node), pos < l.length →
    (siftUp l pos).Perm l := by
  intro pos
  induction pos using Nat.strong_induction_on with
  | _ pos ih =>
    intro l hlen
    rw [siftUp_eq]
    split
    · exact List.Perm.refl l
    · rename_i h0
      split
      · have hpar : (pos - 1) / 2 < pos := by omega
        have hperm := swapAt_perm l hlen (by omega : (pos - 1) / 2 < l.length)
        have := ih ((pos - 1) / 2) hpar (swapAt l pos ((pos - 1) / 2))
          (by rw [swapAt_length]; omega)
        exact this.trans hperm
      · exact List.Perm.refl l

theorem siftDown_perm_aux : ∀ (n : Nat) (l : List Node) (pos : Nat),
    l.length - pos ≤ n → pos < l.length → (siftDown l pos).Perm l := by
  intro n
  induction n with
  | zero => intro l pos hn hp; omega
  | succ n ih =>
    intro l pos hn hp
    rw [siftDown_eq]
    split
    · rename_i h1
      split
      · have hs := swapAt_perm l hp (by omega : 2 * pos + 2 < l.length)
        have := ih (swapAt l pos (2 * pos + 2)) (2 * pos + 2)
          (by rw [swapAt_length]; omega) (by rw [swapAt_length]; omega)
        exact this.trans hs
      · have hs := swapAt_perm l hp (by omega : 2 * pos + 1 < l.length)
        have := ih (swapAt l pos (2 * pos + 1)) (2 * pos + 1)
          (by rw [swapAt_length]; omega) (by rw [swapAt_length]; omega)
        exact this.trans hs
    · rename_i h1
      split
      · rename_i h2
        have hs := swapAt_perm l hp (by omega : 2 * pos + 1 < l.length)
        have := siftUp_perm (2 * pos + 1) (swapAt l pos (2 * pos + 1))
          (by rw [swapAt_length]; omega)
        exact this.trans hs
      · exact siftUp_perm pos l hp

theorem siftDown_perm (l : List Node) (pos : Nat) (hp : pos < l.length) :
    (siftDown l pos).Perm l :=
  siftDown_perm_aux l.length l pos (by omega) hp

theorem heapPush_perm (l : List Node) (x : Node) : (heapPush l x).Perm (x :: l) := by
  have h1 := siftUp_perm l.length (l ++ [x]) (by simp)
  exact h1.trans (List.perm_append_singleton x l)

theorem heapPop_eq_none_iff (l : List Node) : heapPop l = none ↔ l = [] := by
  cases hl : l.getLast? with
  | none =>
    simp only [heapPop, hl]
    simpa using List.getLast?_eq_none_iff.mp hl
  | some last =>
    simp only [heapPop, hl]
    constructor
    · intro h
      split at h <;> simp at h
    · intro h
      subst h
      simp at hl

theorem heapPop_perm {l : List Node} {nd : Node} {rest : List Node}
    (h : heapPop l = some (nd, rest)) : l.Perm (nd :: rest) := by
  cases hl : l.getLast? with
  | none => simp [heapPop, hl] at h
  | some last =>
    have hdecomp : l.dropLast ++ [last] = l := List.dropLast_append_getLast? last hl
    simp only [heapPop, hl] at h
    by_cases hemp : l.dropLast.isEmpty
    · rw [if_pos hemp] at h
      obtain ⟨rfl, rfl⟩ := Prod.mk.injEq .. ▸ Option.some.inj h
      have : l.dropLast = [] := by simpa [List.isEmpty_iff] using hemp
      rw [this] at hdecomp
      rw [← hdecomp]
      exact List.Perm.refl _
    · rw [if_neg hemp] at h
      obtain ⟨h1, h2⟩ := Prod.mk.injEq .. ▸ Option.some.inj h
      cases hdl : l.dropLast with
      | nil => rw [hdl] at hemp; simp at hemp
      | cons h0 t =>
        rw [hdl] at h1 h2
        simp only [nthNode, List.getD_cons_zero] at h1
        rw [List.set_cons_zero] at h2
        have hperm : rest.Perm (last :: t) := by
          rw [← h2]
          exact siftDown_perm (last :: t) 0 (by simp)
        have hl2 : l = h0 :: (t ++ [last]) := by
          rw [← hdecomp, hdl]
          simp
        rw [hl2, ← h1]
        have hps : (t ++ [last]).Perm (last :: t) := List.perm_append_singleton last t
        exact (List.Perm.cons h0 hps).trans (List.Perm.cons h0 hperm.symm)

theorem heapPop_mem {l : List Node} {nd : Node} {rest : List Node}
    (h : heapPop l = some (nd, rest)) : nd ∈ l :=
  (heapPop_perm h).mem_iff.mpr (List.mem_cons_self _ _)

theorem heapPop_rest_mem {l : List Node} {nd x : Node} {rest : List Node}
    (h : heapPop l = some (nd, rest)) (hx : x ∈ rest) : x ∈ l :=
  (heapPop_perm h).mem_iff.mpr (List.mem_cons_of_mem _ hx)

theorem heapPop_length {l : List Node} {nd : Node} {rest : List Node}
    (h : heapPop l = some (nd, rest)) : l.length = rest.length + 1 := by
  have := (heapPop_perm h).length_eq
  simpa using this

theorem heapPop_mem_cases {l : List Node} {nd x : Node} {rest : List Node}
    (h : heapPop l = some (nd, rest)) (hx : x ∈ l) : x = nd ∨ x ∈ rest := by
  have := (heapPop_perm h).mem_iff.mp hx
  simpa using this

theorem heapPush_mem_iff (l : List Node) (x nd : Node) :
    x ∈ heapPush l nd ↔ x = nd ∨ x ∈ l := by
  rw [(heapPush_perm l nd).mem_iff]
  simp

theorem heapPush_length (l : List Node) (nd : Node) :
    (heapPush l nd).length = l.length + 1 := by
  have := (heapPush_perm l nd).length_eq
  simpa using this

/-!  Case analysis of one neighbor-loop iteration, and fold combinators. -/

theorem processNeighbor_trichotomy (goal : Coord) (b : List Coord) (cur : Coord)
    (st : AState) (n : Coord) :
    ((n ∈ st.closed_set ∨ n ∈ b) ∧ processNeighbor goal b cur st n = st) ∨
    (n ∉ st.closed_set ∧ n ∉ b ∧
      (∃ v, lookupC st.g_score n = some v ∧
        v ≤ (lookupC st.g_score cur).getD 0 + calculate_distance cur n) ∧
      processNeighbor goal b cur st n = st) ∨
    (n ∉ st.closed_set ∧ n ∉ b ∧
      (lookupC st.g_score n = none ∨
        ∃ v, lookupC st.g_score n = some v ∧
          (lookupC st.g_score cur).getD 0 + calculate_distance cur n < v) ∧
      processNeighbor goal b cur st n =
        { open_set := heapPush st.open_set
            ⟨n, (lookupC st.g_score cur).getD 0 + calculate_distance cur n,
              (lookupC st.g_score cur).getD 0 + calculate_distance cur n +
                calculate_distance n goal⟩,
          closed_set := st.closed_set,
          came_from := insertC st.came_from n cur,
          g_score := insertC st.g_score n
            ((lookupC st.g_score cur).getD 0 + calculate_distance cur n) }) := by
  by_cases h1 : n ∈ st.closed_set ∨ n ∈ b
  · exact Or.inl ⟨h1, by simp [processNeighbor, h1]⟩
  · push_neg at h1
    cases hv : lookupC st.g_score n with
    | none =>
      refine Or.inr (Or.inr ⟨h1.1, h1.2, Or.inl rfl, ?_⟩)
      simp only [processNeighbor, hv]
      rw [if_neg (by tauto)]
      rfl
    | some v =>
      by_cases ht : (lookupC st.g_score cur).getD 0 + calculate_distance cur n < v
      · refine Or.inr (Or.inr ⟨h1.1, h1.2, Or.inr ⟨v, rfl, ht⟩, ?_⟩)
        simp only [processNeighbor, hv]
        rw [if_neg (by tauto)]
        simp [ht]
      · refine Or.inr (Or.inl ⟨h1.1, h1.2, ⟨v, rfl, by omega⟩, ?_⟩)
        simp only [processNeighbor, hv]
        rw [if_neg (by tauto)]
        simp [ht]

theorem foldl_pn_preserve (goal : Coord) (b : List Coord) (cur : Coord)
    (P : AState → Prop) :
    ∀ (ns : List Coord),
      (∀ st n, n ∈ ns → P st → P (processNeighbor goal b cur st n)) →
      ∀ st, P st → P (ns.foldl (processNeighbor goal b cur) st) := by
  intro ns
  induction ns with
  | nil => intro _ st hst; simpa using hst
  | cons m t ih =>
    intro hP st hst
    simp only [List.foldl_cons]
    exact ih (fun st1 n hn h1 => hP st1 n (List.mem_cons_of_mem _ hn) h1)
      (processNeighbor goal b cur st m) (hP st m (List.mem_cons_self _ _) hst)

theorem foldl_pn_establish (goal : Coord) (b : List Coord) (cur : Coord)
    (Q : Coord → AState → Prop) :
    ∀ (ns : List Coord),
      (∀ st n, n ∈ ns → Q n (processNeighbor goal b cur st n)) →
      (∀ st m n, m ∈ ns → Q n st → Q n (processNeighbor goal b cur st m)) →
      ∀ st, ∀ n ∈ ns, Q n (ns.foldl (processNeighbor goal b cur) st) := by
  intro ns
  induction ns with
  | nil => intro _ _ st n hn; simp at hn
  | cons m t ih =>
    intro hQe hQp st n hn
    simp only [List.foldl_cons]
    rcases List.mem_cons.mp hn with rfl | hn1
    · exact foldl_pn_preserve goal b cur (Q n) t
        (fun st1 m1 hm1 h1 => hQp st1 m1 n (List.mem_cons_of_mem _ hm1) h1)
        (processNeighbor goal b cur st n) (hQe st n (List.mem_cons_self _ _))
    · exact ih (fun st1 n1 hn1a => hQe st1 n1 (List.mem_cons_of_mem _ hn1a))
        (fun st1 m1 n1 hm1 h1 => hQp st1 m1 n1 (List.mem_cons_of_mem _ hm1) h1)
        (processNeighbor goal b cur st m) n hn1

theorem insertC_entries_nodup {α : Type} {m : List (Coord × α)} {k : Coord} {v : α}
    {e1 : Coord × α} (hnd : (m.map Prod.fst).Nodup) (h : e1 ∈ insertC m k v) :
    e1 = (k, v) ∨ (e1 ∈ m ∧ e1.1 ≠ k) := by
  induction m with
  | nil => simpa [insertC] using h
  | cons a t ih =>
    simp only [List.map_cons, List.nodup_cons] at hnd
    by_cases ha : a.1 = k
    · simp only [insertC, if_pos ha, List.mem_cons] at h
      rcases h with h | h
      · exact Or.inl h
      · refine Or.inr ⟨List.mem_cons_of_mem _ h, ?_⟩
        intro hek
        apply hnd.1
        rw [ha, ← hek]
        exact List.mem_map_of_mem Prod.fst h
    · simp only [insertC, if_neg ha, List.mem_cons] at h
      rcases h with h | h
      · refine Or.inr ⟨by rw [h]; exact List.mem_cons_self _ _, by rw [h]; exact ha⟩
      · rcases ih hnd.2 h with h1 | h1
        · exact Or.inl h1
        · exact Or.inr ⟨List.mem_cons_of_mem _ h1.1, h1.2⟩

/-- One neighbor-loop iteration preserves the mid-expansion invariant. -/
theorem midInv_pn (start goal cur : Coord) (b : List Coord) (st : AState) (n : Coord)
    (hn : n ∈ neighbors cur) (H : MidInv start goal cur b st) :
    MidInv start goal cur b (processNeighbor goal b cur st n) := by
  rcases processNeighbor_trichotomy goal b cur st n with ⟨_, heq⟩ | ⟨_, _, _, heq⟩ |
    ⟨hncl, hnb, hup, heq⟩
  · rw [heq]; exact H
  · rw [heq]; exact H
  · have hcalc : calculate_distance cur n = 1 := calculate_distance_neighbor hn
    have hncur : n ≠ cur := by
      intro hcontra
      rw [hcontra] at hn
      exact not_self_mem_neighbors cur hn
    obtain ⟨vc, hvc⟩ := Option.isSome_iff_exists.mp H.curG
    have htval : (lookupC st.g_score cur).getD 0 + calculate_distance cur n = vc + 1 := by
      rw [hvc, hcalc]
      rfl
    have hnstart : n ≠ start := by
      rintro rfl
      rcases hup with h | ⟨v, hv, hlt⟩
      · rw [H.gStart] at h
        exact Option.some_ne_none 0 h
      · rw [H.gStart] at hv
        obtain rfl := Option.some.inj hv
        omega
    rw [heq]
    constructor
    case gStart =>
      show lookupC (insertC st.g_score n _) start = some 0
      rw [lookupC_insertC_ne (fun h => hnstart h.symm)]
      exact H.gStart
    case gNodup =>
      exact insertC_nodup _ _ H.gNodup
    case cfNodup =>
      exact insertC_nodup _ _ H.cfNodup
    case gKeys =>
      intro p hp
      rcases (insertC_keys_mem _ _ _ _).mp hp with rfl | hp1
      · exact Or.inr (neighbors_grid hn)
      · exact H.gKeys p hp1
    case gBound =>
      dsimp only
      intro e he
      have hvcle : vc ≤ st.g_score.length := H.gBound (cur, vc) (lookupC_mem hvc)
      rcases insertC_entries he with rfl | he1
      · show (lookupC st.g_score cur).getD 0 + calculate_distance cur n ≤ _
        rcases hup with hnone | ⟨v, hv, hlt⟩
        · rw [insertC_length_of_not_mem _ ((lookupC_eq_none_iff _ _).mp hnone)]
          rw [htval]
          omega
        · have hmem : n ∈ st.g_score.map Prod.fst :=
            (lookupC_isSome_iff _ _).mp (by rw [hv]; rfl)
          rw [insertC_length_of_mem _ hmem, htval]
          have := H.gBound (n, v) (lookupC_mem hv)
          simp only at this
          omega
      · have h1 := H.gBound e he1
        have h2 : st.g_score.length ≤ (insertC st.g_score n
            ((lookupC st.g_score cur).getD 0 + calculate_distance cur n)).length := by
          by_cases hm : n ∈ st.g_score.map Prod.fst
          · rw [insertC_length_of_mem _ hm]
          · rw [insertC_length_of_not_mem _ hm]
            omega
        omega
    case curG =>
      show (lookupC (insertC st.g_score n _) cur).isSome = true
      rw [lookupC_insertC_ne hncur.symm, hvc]
      rfl
    case openG =>
      intro nd hnd
      rcases (heapPush_mem_iff _ _ _).mp hnd with rfl | hnd1
      · show (lookupC (insertC st.g_score n _) n).isSome = true
        rw [lookupC_insertC_self]
        rfl
      · by_cases hp : nd.point = n
        · rw [hp]
          show (lookupC (insertC st.g_score n _) n).isSome = true
          rw [lookupC_insertC_self]
          rfl
        · show (lookupC (insertC st.g_score n _) nd.point).isSome = true
          rw [lookupC_insertC_ne hp]
          exact H.openG nd hnd1
    case openCover =>
      intro p hp hpcl
      rcases (insertC_keys_mem _ _ _ _).mp hp with rfl | hp1
      · exact ⟨_, (heapPush_mem_iff _ _ _).mpr (Or.inl rfl), rfl⟩
      · obtain ⟨nd, hnd, hndp⟩ := H.openCover p hp1 hpcl
        exact ⟨nd, (heapPush_mem_iff _ _ _).mpr (Or.inr hnd), hndp⟩
    case closedG =>
      intro c hc
      by_cases hcn : c = n
      · rw [hcn]
        show (lookupC (insertC st.g_score n _) n).isSome = true
        rw [lookupC_insertC_self]
        rfl
      · show (lookupC (insertC st.g_score n _) c).isSome = true
        rw [lookupC_insertC_ne hcn]
        exact H.closedG c hc
    case closedExpOld =>
      intro c hc hccur m hm hmb hmcl
      have hcn : c ≠ n := by
        rintro rfl
        exact hncl hc
      obtain ⟨v, hv, hvle⟩ := H.closedExpOld c hc hccur m hm hmb hmcl
      by_cases hmn : m = n
      · subst hmn
        rcases hup with hnone | ⟨v1, hv1, hlt⟩
        · rw [hnone] at hv
          exact absurd hv (by simp)
        · refine ⟨(lookupC st.g_score cur).getD 0 + calculate_distance cur m, ?_, ?_⟩
          · show lookupC (insertC st.g_score m _) m = _
            rw [lookupC_insertC_self]
          · show _ ≤ (lookupC (insertC st.g_score m _) c).getD 0 + calculate_distance c m
            rw [lookupC_insertC_ne hcn]
            rw [hv1] at hv
            obtain rfl := Option.some.inj hv
            omega
      · refine ⟨v, ?_, ?_⟩
        · show lookupC (insertC st.g_score n _) m = _
          rw [lookupC_insertC_ne hmn]
          exact hv
        · show _ ≤ (lookupC (insertC st.g_score n _) c).getD 0 + calculate_distance c m
          rw [lookupC_insertC_ne hcn]
          exact hvle
    case cameProps =>
      intro e he
      rcases insertC_entries_nodup H.cfNodup he with rfl | ⟨he1, hekey⟩
      · refine ⟨hnstart, hnb, hn, (lookupC st.g_score cur).getD 0 + calculate_distance cur n,
          vc, ?_, ?_, ?_⟩
        · show lookupC (insertC st.g_score n _) n = _
          rw [lookupC_insertC_self]
        · show lookupC (insertC st.g_score n _) cur = _
          rw [lookupC_insertC_ne hncur.symm]
          exact hvc
        · omega
      · obtain ⟨hs, hb2, hnbr, vn, vcold, hvn, hvc2, hlt⟩ := H.cameProps e he1
        refine ⟨hs, hb2, hnbr, vn, ?_⟩
        have hvn1 : lookupC (insertC st.g_score n
            ((lookupC st.g_score cur).getD 0 + calculate_distance cur n)) e.1 = some vn := by
          rw [lookupC_insertC_ne hekey]
          exact hvn
        by_cases he2n : e.2 = n
        · rcases hup with hnone | ⟨v1, hv1, hlt1⟩
          · rw [he2n, hnone] at hvc2
            exact absurd hvc2 (by simp)
          · refine ⟨(lookupC st.g_score cur).getD 0 + calculate_distance cur n, hvn1, ?_, ?_⟩
            · rw [he2n]
              show lookupC (insertC st.g_score n _) n = _
              rw [lookupC_insertC_self]
            · rw [he2n, hv1] at hvc2
              obtain rfl := Option.some.inj hvc2
              omega
        · refine ⟨vcold, hvn1, ?_, hlt⟩
          show lookupC (insertC st.g_score n _) e.2 = _
          rw [lookupC_insertC_ne he2n]
          exact hvc2
    case gCame =>
      intro p hp hps
      by_cases hpn : p = n
      · rw [hpn]
        show (lookupC (insertC st.came_from n cur) n).isSome = true
        rw [lookupC_insertC_self]
        rfl
      · show (lookupC (insertC st.came_from n cur) p).isSome = true
        rw [lookupC_insertC_ne hpn]
        rcases (insertC_keys_mem _ _ _ _).mp hp with rfl | hp1
        · exact absurd rfl hpn
        · exact H.gCame p hp1 hps
    case goalClosed =>
      exact H.goalClosed

theorem pn_closed_eq (goal : Coord) (b : List Coord) (cur : Coord) (st : AState)
    (n : Coord) : (processNeighbor goal b cur st n).closed_set = st.closed_set := by
  rcases processNeighbor_trichotomy goal b cur st n with ⟨_, heq⟩ | ⟨_, _, _, heq⟩ |
    ⟨_, _, _, heq⟩ <;> rw [heq]

theorem expandPoint_closed (goal : Coord) (b : List Coord) (cur : Coord) (st : AState) :
    (expandPoint goal b cur st).closed_set = st.closed_set := by
  unfold expandPoint
  refine foldl_pn_preserve goal b cur (fun stx => stx.closed_set = st.closed_set)
    (neighbors cur) ?_ st rfl
  intro st1 n _ h1
  rw [pn_closed_eq, h1]

theorem expandPoint_midInv (start goal cur : Coord) (b : List Coord) (st : AState)
    (H : MidInv start goal cur b st) :
    MidInv start goal cur b (expandPoint goal b cur st) := by
  unfold expandPoint
  exact foldl_pn_preserve goal b cur (MidInv start goal cur b) (neighbors cur)
    (fun st1 n hn h1 => midInv_pn start goal cur b st1 n hn h1) st H

/-- Establishment half of the neighbor-loop postcondition: right after
processing `m`, the coordinate `m` (if unblocked and unclosed) carries a
score at most `g(cur) + cost(cur, m)`. -/
theorem pn_offer_est (goal cur : Coord) (b : List Coord) (st1 : AState) (m : Coord)
    (hm : m ∈ neighbors cur) :
    m ∉ b → m ∉ (processNeighbor goal b cur st1 m).closed_set →
    ∃ v, lookupC (processNeighbor goal b cur st1 m).g_score m = some v ∧
      v ≤ (lookupC (processNeighbor goal b cur st1 m).g_score cur).getD 0 +
        calculate_distance cur m := by
  intro hmb hmcl
  have hmcur : m ≠ cur := by
    intro hcontra
    rw [hcontra] at hm
    exact not_self_mem_neighbors cur hm
  rcases processNeighbor_trichotomy goal b cur st1 m with ⟨hsk, heq⟩ |
    ⟨_, _, hex, heq⟩ | ⟨hncl1, hnb1, hup, heq⟩
  · rw [heq] at hmcl ⊢
    rcases hsk with hsk | hsk
    · exact absurd hsk hmcl
    · exact absurd hsk hmb
  · rw [heq]
    exact hex
  · rw [heq]
    refine ⟨(lookupC st1.g_score cur).getD 0 + calculate_distance cur m, ?_, ?_⟩
    · show lookupC (insertC st1.g_score m _) m = _
      rw [lookupC_insertC_self]
    · show _ ≤ (lookupC (insertC st1.g_score m _) cur).getD 0 + _
      rw [lookupC_insertC_ne hmcur.symm]

/-- Preservation half of the neighbor-loop postcondition: processing a
neighbor `m1` keeps the postcondition for any `m`. -/
theorem pn_offer_pres (goal cur : Coord) (b : List Coord) (st1 : AState) (m1 m : Coord)
    (hm1 : m1 ∈ neighbors cur)
    (hQ : m ∉ b → m ∉ st1.closed_set →
      ∃ v, lookupC st1.g_score m = some v ∧
        v ≤ (lookupC st1.g_score cur).getD 0 + calculate_distance cur m) :
    m ∉ b → m ∉ (processNeighbor goal b cur st1 m1).closed_set →
    ∃ v, lookupC (processNeighbor goal b cur st1 m1).g_score m = some v ∧
      v ≤ (lookupC (processNeighbor goal b cur st1 m1).g_score cur).getD 0 +
        calculate_distance cur m := by
  intro hmb hmcl
  have hm1cur : m1 ≠ cur := by
    intro hcontra
    rw [hcontra] at hm1
    exact not_self_mem_neighbors cur hm1
  rcases processNeighbor_trichotomy goal b cur st1 m1 with ⟨_, heq⟩ |
    ⟨_, _, _, heq⟩ | ⟨hncl1, hnb1, hup, heq⟩
  · rw [heq] at hmcl ⊢
    exact hQ hmb hmcl
  · rw [heq] at hmcl ⊢
    exact hQ hmb hmcl
  · rw [heq] at hmcl ⊢
    by_cases hmm : m = m1
    · subst hmm
      refine ⟨(lookupC st1.g_score cur).getD 0 + calculate_distance cur m, ?_, ?_⟩
      · show lookupC (insertC st1.g_score m _) m = _
        rw [lookupC_insertC_self]
      · show _ ≤ (lookupC (insertC st1.g_score m _) cur).getD 0 + _
        rw [lookupC_insertC_ne hm1cur.symm]
    · obtain ⟨v, hv, hvle⟩ := hQ hmb (by simpa using hmcl)
      refine ⟨v, ?_, ?_⟩
      · show lookupC (insertC st1.g_score m1 _) m = _
        rw [lookupC_insertC_ne hmm]
        exact hv
      · show _ ≤ (lookupC (insertC st1.g_score m1 _) cur).getD 0 + _
        rw [lookupC_insertC_ne hm1cur.symm]
        exact hvle

/-- After the whole neighbor loop of `cur`, every unblocked unclosed neighbor
of `cur` carries a score at most `g(cur) + cost(cur, n)`. -/
theorem expandPoint_offers (goal cur : Coord) (b : List Coord) (st : AState) :
    ∀ n ∈ neighbors cur, n ∉ b → n ∉ (expandPoint goal b cur st).closed_set →
      ∃ v, lookupC (expandPoint goal b cur st).g_score n = some v ∧
        v ≤ (lookupC (expandPoint goal b cur st).g_score cur).getD 0 +
          calculate_distance cur n := by
  intro n hn
  exact foldl_pn_establish goal b cur
    (fun m stx => m ∉ b → m ∉ stx.closed_set →
      ∃ v, lookupC stx.g_score m = some v ∧
        v ≤ (lookupC stx.g_score cur).getD 0 + calculate_distance cur m)
    (neighbors cur)
    (fun st1 m hm => pn_offer_est goal cur b st1 m hm)
    (fun st1 m1 m hm1 hQ => pn_offer_pres goal cur b st1 m1 m hm1 hQ)
    st n hn

/-- Closing the popped coordinate produces a state satisfying the
mid-expansion invariant. -/
theorem midInv_of_pop (start goal : Coord) (b : List Coord) (st : AState)
    {current : Node} {rest : List Node}
    (H : AInv start goal b st) (hpop : heapPop st.open_set = some (current, rest))
    (hg : current.point ≠ goal) :
    MidInv start goal current.point b
      ⟨rest, setInsert st.closed_set current.point, st.came_from, st.g_score⟩ := by
  have hcur : current ∈ st.open_set := heapPop_mem hpop
  have hcurG : (lookupC st.g_score current.point).isSome := H.openG current hcur
  constructor
  case gStart => exact H.gStart
  case gNodup => exact H.gNodup
  case cfNodup => exact H.cfNodup
  case gKeys => exact H.gKeys
  case gBound => exact H.gBound
  case curG => exact hcurG
  case openG => exact fun nd hnd => H.openG nd (heapPop_rest_mem hpop hnd)
  case openCover =>
    intro p hp hpcl
    rw [mem_setInsert] at hpcl
    push_neg at hpcl
    obtain ⟨nd, hnd, hndp⟩ := H.openCover p hp hpcl.2
    rcases heapPop_mem_cases hpop hnd with rfl | hnd1
    · exact absurd hndp.symm hpcl.1
    · exact ⟨nd, hnd1, hndp⟩
  case closedG =>
    intro c hc
    rcases (mem_setInsert _ _ _).mp hc with rfl | hc1
    · exact hcurG
    · exact H.closedG c hc1
  case closedExpOld =>
    intro c hc hccur m hm hmb hmcl
    rcases (mem_setInsert _ _ _).mp hc with rfl | hc1
    · exact absurd rfl hccur
    · have hmcl1 : m ∉ st.closed_set := fun hx => hmcl (setInsert_subset _ _ hx)
      exact H.closedExp c hc1 m hm hmb hmcl1
  case cameProps => exact H.cameProps
  case gCame => exact H.gCame
  case goalClosed =>
    intro hc
    rcases (mem_setInsert _ _ _).mp hc with h1 | h1
    · exact hg h1.symm
    · exact H.goalClosed h1

/-- One loop iteration preserves the invariant. -/
theorem stepFn_inv (start goal : Coord) (b : List Coord) {st st2 : AState}
    (H : AInv start goal b st) (h : stepFn goal b st = some st2) :
    AInv start goal b st2 := by
  cases hpop : heapPop st.open_set with
  | none =>
    simp only [stepFn, hpop] at h
    exact absurd h (by simp)
  | some pr =>
    obtain ⟨current, rest⟩ := pr
    simp only [stepFn, hpop] at h
    by_cases hg : current.point = goal
    · rw [if_pos hg] at h
      exact absurd h (by simp)
    · rw [if_neg hg] at h
      obtain rfl := Option.some.inj h
      have hmid : MidInv start goal current.point b
          ⟨rest, setInsert st.closed_set current.point, st.came_from, st.g_score⟩ :=
        midInv_of_pop start goal b st H hpop hg
      have hmid2 := expandPoint_midInv start goal current.point b _ hmid
      have hoffer := expandPoint_offers goal current.point b
        ⟨rest, setInsert st.closed_set current.point, st.came_from, st.g_score⟩
      have hcl2 := expandPoint_closed goal b current.point
        ⟨rest, setInsert st.closed_set current.point, st.came_from, st.g_score⟩
      refine ⟨hmid2.gStart, hmid2.gNodup, hmid2.cfNodup, hmid2.gKeys, hmid2.gBound,
        hmid2.openG, hmid2.openCover, hmid2.closedG, ?_, hmid2.cameProps,
        hmid2.gCame, hmid2.goalClosed⟩
      intro c hc m hm hmb hmcl
      by_cases hccur : c = current.point
      · subst hccur
        exact hoffer m hm hmb hmcl
      · exact hmid2.closedExpOld c hc hccur m hm hmb hmcl

theorem heapPush_nil (x : Node) : heapPush [] x = [x] := rfl

/-- The invariant holds at the initial state of `a_star start goal barriers`. -/
theorem initState_inv (start goal : Coord) (b : List Coord) :
    AInv start goal b (initState start goal) := by
  have hopen : (initState start goal).open_set = [⟨start, 0, calculate_distance start goal⟩] :=
    heapPush_nil _
  have hg : (initState start goal).g_score = [(start, 0)] := rfl
  constructor
  case gStart => rw [hg]; simp [lookupC]
  case gNodup => rw [hg]; simp
  case cfNodup => simp [initState]
  case gKeys =>
    rw [hg]
    intro p hp
    simp at hp
    exact Or.inl hp
  case gBound =>
    rw [hg]
    intro e he
    simp at he
    subst he
    simp
  case openG =>
    intro nd hnd
    rw [hopen] at hnd
    simp at hnd
    rw [hg, hnd]
    simp [lookupC]
  case openCover =>
    intro p hp _
    rw [hg] at hp
    simp at hp
    refine ⟨⟨start, 0, calculate_distance start goal⟩, ?_, by rw [hp]⟩
    rw [hopen]
    simp
  case closedG => intro c hc; simp [initState] at hc
  case closedExp => intro c hc; simp [initState] at hc
  case cameProps => intro e he; simp [initState] at he
  case gCame =>
    rw [hg]
    intro p hp hps
    simp at hp
    exact absurd hp hps
  case goalClosed => simp [initState]

/-- The invariant holds at every state the loop reaches. -/
theorem reaches_inv (start goal : Coord) (b : List Coord) {st st2 : AState}
    (h : Reaches goal b st st2) (H : AInv start goal b st) : AInv start goal b st2 := by
  induction h with
  | refl => exact H
  | tail _ hbc ih => exact stepFn_inv start goal b ih hbc

/-!  Correctness of `reconstruct_path` under the loop invariant: walking the
predecessor map backward from a scored coordinate produces a chain ending at
`start`, within the fuel `came_from.length + 1`. -/

theorem nodup_subset_length {α : Type} [DecidableEq α] (l l2 : List α) (h : l.Nodup)
    (hs : l ⊆ l2) : l.length ≤ l2.length := by
  have h1 : l.length = l.toFinset.card := (List.toFinset_card_of_nodup h).symm
  have h2 : l.toFinset ⊆ l2.toFinset := by
    intro x hx
    rw [List.mem_toFinset] at hx ⊢
    exact hs hx
  have h3 : l.toFinset.card ≤ l2.toFinset.card := Finset.card_le_card h2
  have h4 : l2.toFinset.card ≤ l2.length := l2.toFinset_card_le
  omega

theorem lookupC_start_none (start goal1 : Coord) (b : List Coord) (st : AState)
    (H : AInv start goal1 b st) : lookupC st.came_from start = none := by
  cases hcf : lookupC st.came_from start with
  | none => rfl
  | some c =>
    have hmem := lookupC_mem hcf
    exact absurd rfl (H.cameProps (start, c) hmem).1

theorem gscore_le_came_succ (start goal1 : Coord) (b : List Coord) (st : AState)
    (H : AInv start goal1 b st) : st.g_score.length ≤ st.came_from.length + 1 := by
  have hsub : st.g_score.map Prod.fst ⊆ start :: st.came_from.map Prod.fst := by
    intro p hp
    by_cases hps : p = start
    · rw [hps]; exact List.mem_cons_self _ _
    · have := H.gCame p hp hps
      rw [lookupC_isSome_iff] at this
      exact List.mem_cons_of_mem _ this
  have := nodup_subset_length _ _ H.gNodup hsub
  simpa using this

theorem reconstructAux_chain (start goal1 : Coord) (b : List Coord) (st : AState)
    (H : AInv start goal1 b st) :
    ∀ v : Nat, ∀ cur : Coord, ∀ vcur : Nat, lookupC st.g_score cur = some vcur →
      vcur ≤ v → ∀ fuel : Nat, vcur ≤ fuel → ∀ acc : List Coord,
      ∃ tail : List Coord,
        reconstructAux fuel st.came_from cur acc = acc ++ tail ∧
        List.Chain' (fun a c => lookupC st.came_from a = some c) (cur :: tail) ∧
        (cur :: tail).getLast? = some start := by
  intro v
  induction v with
  | zero =>
    intro cur vcur hcur hv fuel _ acc
    have hvz : vcur = 0 := by omega
    have hcs : cur = start := by
      by_contra hcs
      have hkey : cur ∈ st.g_score.map Prod.fst :=
        (lookupC_isSome_iff _ _).mp (by rw [hcur]; rfl)
      have hsome := H.gCame cur hkey hcs
      obtain ⟨c, hc⟩ := Option.isSome_iff_exists.mp hsome
      obtain ⟨_, _, _, vn, vc, hvn, hvc, hlt⟩ := H.cameProps (cur, c) (lookupC_mem hc)
      simp only at hvn
      rw [hcur] at hvn
      obtain rfl := Option.some.inj hvn
      omega
    have hnone : lookupC st.came_from cur = none := by
      rw [hcs]
      exact lookupC_start_none start goal1 b st H
    refine ⟨[], ?_, ?_, ?_⟩
    · cases fuel with
      | zero => simp [reconstructAux]
      | succ f => simp [reconstructAux, hnone]
    · simp
    · simp [hcs]
  | succ v ih =>
    intro cur vcur hcur hv fuel hfuel acc
    cases hcf : lookupC st.came_from cur with
    | none =>
      have hcs : cur = start := by
        by_contra hcs
        have hkey : cur ∈ st.g_score.map Prod.fst :=
          (lookupC_isSome_iff _ _).mp (by rw [hcur]; rfl)
        have hsome := H.gCame cur hkey hcs
        rw [hcf] at hsome
        exact absurd hsome (by simp)
      refine ⟨[], ?_, ?_, ?_⟩
      · cases fuel with
        | zero => simp [reconstructAux]
        | succ f => simp [reconstructAux, hcf]
      · simp
      · simp [hcs]
    | some prev =>
      obtain ⟨_, _, _, vn, vc, hvn, hvc, hlt⟩ := H.cameProps (cur, prev) (lookupC_mem hcf)
      simp only at hvn hvc
      rw [hcur] at hvn
      obtain rfl := Option.some.inj hvn
      have hvc1 : vc < vcur := hlt
      cases fuel with
      | zero => omega
      | succ f =>
        have hstep : reconstructAux (f + 1) st.came_from cur acc =
            reconstructAux f st.came_from prev (acc ++ [prev]) := by
          simp [reconstructAux, hcf]
        obtain ⟨tail, htail, hchain, hlast⟩ :=
          ih prev vc hvc (by omega) f (by omega) (acc ++ [prev])
        refine ⟨prev :: tail, ?_, ?_, ?_⟩
        · rw [hstep, htail]
          simp
        · exact List.Chain'.cons hcf hchain
        · rw [List.getLast?_cons_cons]
          exact hlast
  
theorem reconstruct_path_spec (start goal1 : Coord) (b : List Coord) (st : AState)
    (H : AInv start goal1 b st) (gp : Coord)
    (hgp : (lookupC st.g_score gp).isSome) :
    ∃ tail : List Coord,
      reconstruct_path st.came_from gp = (gp :: tail).reverse ∧
      List.Chain' (fun a c => lookupC st.came_from a = some c) (gp :: tail) ∧
      (gp :: tail).getLast? = some start := by
  obtain ⟨vgp, hvgp⟩ := Option.isSome_iff_exists.mp hgp
  have hb1 : vgp ≤ st.g_score.length := by
    have := H.gBound (gp, vgp) (lookupC_mem hvgp)
    simpa using this
  have hb2 : st.g_score.length ≤ st.came_from.length + 1 :=
    gscore_le_came_succ start goal1 b st H
  obtain ⟨tail, htail, hchain, hlast⟩ :=
    reconstructAux_chain start goal1 b st H vgp gp vgp hvgp (by omega)
      (st.came_from.length + 1) (by omega) [gp]
  refine ⟨tail, ?_, hchain, hlast⟩
  rw [reconstruct_path, htail]
  simp

/-!  Analysis of the main loop: what holds when it returns `Some(path)`,
when it returns `None`, and why its fuel never runs out. -/

theorem stepFn_eq_some (goal : Coord) (b : List Coord) (st : AState)
    {current : Node} {rest : List Node}
    (hpop : heapPop st.open_set = some (current, rest)) (hg : current.point ≠ goal) :
    stepFn goal b st = some (expandPoint goal b current.point
      ⟨rest, setInsert st.closed_set current.point, st.came_from, st.g_score⟩) := by
  simp only [stepFn, hpop]
  rw [if_neg hg]

theorem aStarGo_some_path (start goal : Coord) (b : List Coord) :
    ∀ (fuel : Nat) (st : AState) (p : List Coord), AInv start goal b st →
      aStarGo goal b fuel st = some (some p) →
      p.head? = some start ∧ p.getLast? = some goal ∧ 1 ≤ p.length ∧
      List.Chain' (fun a c => c ∈ neighbors a ∧ c ∉ b) p := by
  intro fuel
  induction fuel with
  | zero => intro st p _ h; simp [aStarGo] at h
  | succ fuel ih =>
    intro st p H h
    simp only [aStarGo] at h
    cases hpop : heapPop st.open_set with
    | none => rw [hpop] at h; simp at h
    | some pr =>
      obtain ⟨current, rest⟩ := pr
      simp only [hpop] at h
      by_cases hg : current.point = goal
      · rw [if_pos hg] at h
        have hp : p = reconstruct_path st.came_from goal := by
          have := Option.some.inj h
          exact (Option.some.inj this).symm
        have hcur : current ∈ st.open_set := heapPop_mem hpop
        have hgp : (lookupC st.g_score goal).isSome := by
          rw [← hg]
          exact H.openG current hcur
        obtain ⟨tail, hpath, hchain, hlast⟩ :=
          reconstruct_path_spec start goal b st H goal hgp
        rw [hp, hpath]
        refine ⟨?_, ?_, ?_, ?_⟩
        · rw [List.head?_reverse]
          exact hlast
        · rw [List.getLast?_reverse]
          simp
        · simp
        · rw [List.chain'_reverse]
          refine List.Chain'.imp ?_ hchain
          intro a c hac
          obtain ⟨_, hnb, hnbr, _⟩ := H.cameProps (a, c) (lookupC_mem hac)
          exact ⟨hnbr, hnb⟩
      · rw [if_neg hg] at h
        exact ih _ p (stepFn_inv start goal b H (stepFn_eq_some goal b st hpop hg)) h

theorem closed_closure (start goal : Coord) (b : List Coord) (st : AState)
    (H : AInv start goal b st) (hempty : st.open_set = []) :
    ∀ c : Coord, Reachable b start c → c ∈ st.closed_set := by
  intro c hc
  induction hc with
  | refl =>
    by_contra hcl
    have hkey : start ∈ st.g_score.map Prod.fst :=
      (lookupC_isSome_iff _ _).mp (by rw [H.gStart]; rfl)
    obtain ⟨nd, hnd, _⟩ := H.openCover start hkey hcl
    rw [hempty] at hnd
    exact absurd hnd (by simp)
  | step hr hn hnb ih =>
    rename_i c1 n1
    by_contra hcl
    obtain ⟨v, hv, _⟩ := H.closedExp c1 ih n1 hn hnb hcl
    have hkey : n1 ∈ st.g_score.map Prod.fst :=
      (lookupC_isSome_iff _ _).mp (by rw [hv]; rfl)
    obtain ⟨nd, hnd, _⟩ := H.openCover n1 hkey hcl
    rw [hempty] at hnd
    exact absurd hnd (by simp)

theorem aStarGo_none_unreachable (start goal : Coord) (b : List Coord) :
    ∀ (fuel : Nat) (st : AState), AInv start goal b st →
      aStarGo goal b fuel st = some none → ¬ Reachable b start goal := by
  intro fuel
  induction fuel with
  | zero => intro st _ h; simp [aStarGo] at h
  | succ fuel ih =>
    intro st H h
    simp only [aStarGo] at h
    cases hpop : heapPop st.open_set with
    | none =>
      have hempty : st.open_set = [] := (heapPop_eq_none_iff _).mp hpop
      intro hr
      exact H.goalClosed (closed_closure start goal b st H hempty goal hr)
    | some pr =>
      obtain ⟨current, rest⟩ := pr
      simp only [hpop] at h
      by_cases hg : current.point = goal
      · rw [if_pos hg] at h
        simp at h
      · rw [if_neg hg] at h
        exact ih _ (stepFn_inv start goal b H (stepFn_eq_some goal b st hpop hg)) h

/-!  Termination: each iteration strictly decreases `measureM`, which is
bounded by the fuel `a_star` supplies. -/

theorem mem_gridCells (p : Coord) : p ∈ gridCells ↔ p.1 < 8 ∧ p.2 < 8 := by
  rcases p with ⟨x, y⟩
  simp only [gridCells, List.mem_map, List.mem_range, Prod.mk.injEq]
  constructor
  · rintro ⟨i, hi, rfl, rfl⟩
    omega
  · rintro ⟨hx, hy⟩
    exact ⟨x * 8 + y, by omega, by omega, by omega⟩

theorem gmap_length_le (start : Coord) (g : List (Coord × Nat))
    (h1 : (g.map Prod.fst).Nodup)
    (h2 : ∀ p ∈ g.map Prod.fst, p = start ∨ (p.1 < 8 ∧ p.2 < 8)) :
    g.length ≤ 65 := by
  have hsub : g.map Prod.fst ⊆ start :: gridCells := by
    intro p hp
    rcases h2 p hp with rfl | hgrid
    · exact List.mem_cons_self _ _
    · exact List.mem_cons_of_mem _ ((mem_gridCells p).mpr hgrid)
  have := nodup_subset_length _ _ h1 hsub
  have hlen : (start :: gridCells).length = 65 := by simp [gridCells]
  rw [hlen] at this
  simpa using this

theorem sum_map_succ_le (f g : Coord → Nat) :
    ∀ (l : List Coord) (x0 : Coord), x0 ∈ l → (∀ x ∈ l, f x ≤ g x) →
      f x0 + 1 ≤ g x0 → (l.map f).sum + 1 ≤ (l.map g).sum := by
  intro l
  induction l with
  | nil => intro x0 hx; simp at hx
  | cons a t ih =>
    intro x0 hx hp hs
    simp only [List.map_cons, List.sum_cons]
    rcases List.mem_cons.mp hx with rfl | hx1
    · have hsum : (t.map f).sum ≤ (t.map g).sum :=
        List.sum_le_sum (fun x hxt => hp x (List.mem_cons_of_mem _ hxt))
      omega
    · have hfa : f a ≤ g a := hp a (List.mem_cons_self _ _)
      have := ih x0 hx1 (fun x hxt => hp x (List.mem_cons_of_mem _ hxt)) hs
      omega

theorem capOf_insert_ne (g : List (Coord × Nat)) {n p : Coord} (v : Nat) (h : p ≠ n) :
    capOf (insertC g n v) p = capOf g p := by
  unfold capOf
  rw [lookupC_insertC_ne h]

theorem capOf_insert_self (g : List (Coord × Nat)) (n : Coord) (v : Nat) :
    capOf (insertC g n v) n = v := by
  unfold capOf
  rw [lookupC_insertC_self]

/-- Processing one neighbor never increases the measure. -/
theorem pn_measure (start goal cur : Coord) (b : List Coord) (st : AState) (n : Coord)
    (hn : n ∈ neighbors cur) (H : MidInv start goal cur b st) :
    measureM (processNeighbor goal b cur st n) ≤ measureM st := by
  rcases processNeighbor_trichotomy goal b cur st n with ⟨_, heq⟩ | ⟨_, _, _, heq⟩ |
    ⟨hncl, hnb, hup, heq⟩
  · rw [heq]
  · rw [heq]
  · have hcalc : calculate_distance cur n = 1 := calculate_distance_neighbor hn
    obtain ⟨vc, hvc⟩ := Option.isSome_iff_exists.mp H.curG
    have htval : (lookupC st.g_score cur).getD 0 + calculate_distance cur n = vc + 1 := by
      rw [hvc, hcalc]
      rfl
    have hvcle : vc ≤ st.g_score.length := by
      have := H.gBound (cur, vc) (lookupC_mem hvc)
      simpa using this
    have hcap : capOf (insertC st.g_score n
        ((lookupC st.g_score cur).getD 0 + calculate_distance cur n)) n + 1 ≤
        capOf st.g_score n := by
      rw [capOf_insert_self]
      rcases hup with hnone | ⟨v, hv, hlt⟩
      · have hnk : n ∉ st.g_score.map Prod.fst := (lookupC_eq_none_iff _ _).mp hnone
        have hlen : (insertC st.g_score n
            ((lookupC st.g_score cur).getD 0 + calculate_distance cur n)).length =
            st.g_score.length + 1 := insertC_length_of_not_mem _ hnk
        have hle65 : (insertC st.g_score n
            ((lookupC st.g_score cur).getD 0 + calculate_distance cur n)).length ≤ 65 := by
          refine gmap_length_le start _ (insertC_nodup _ _ H.gNodup) ?_
          intro p hp
          rcases (insertC_keys_mem _ _ _ _).mp hp with rfl | hp1
          · exact Or.inr (neighbors_grid hn)
          · exact H.gKeys p hp1
        have hc66 : capOf st.g_score n = 66 := by
          unfold capOf
          rw [hnone]
        rw [hc66, htval]
        omega
      · have hcv : capOf st.g_score n = v := by
          unfold capOf
          rw [hv]
        rw [hcv]
        omega
    have hpt : ∀ x ∈ gridCells, capOf (insertC st.g_score n
        ((lookupC st.g_score cur).getD 0 + calculate_distance cur n)) x ≤
        capOf st.g_score x := by
      intro x hx
      by_cases hxn : x = n
      · rw [hxn]
        omega
      · rw [capOf_insert_ne _ _ hxn]
    have hsum := sum_map_succ_le _ _ gridCells n
      ((mem_gridCells n).mpr (neighbors_grid hn)) hpt hcap
    rw [heq]
    unfold measureM
    dsimp only
    rw [heapPush_length]
    omega

/-- One loop iteration strictly decreases the measure. -/
theorem stepFn_measure (start goal : Coord) (b : List Coord) {st st2 : AState}
    (H : AInv start goal b st) (h : stepFn goal b st = some st2) :
    measureM st2 < measureM st := by
  cases hpop : heapPop st.open_set with
  | none =>
    simp only [stepFn, hpop] at h
    exact absurd h (by simp)
  | some pr =>
    obtain ⟨current, rest⟩ := pr
    simp only [stepFn, hpop] at h
    by_cases hg : current.point = goal
    · rw [if_pos hg] at h
      exact absurd h (by simp)
    · rw [if_neg hg] at h
      obtain rfl := Option.some.inj h
      have hmid : MidInv start goal current.point b
          ⟨rest, setInsert st.closed_set current.point, st.came_from, st.g_score⟩ :=
        midInv_of_pop start goal b st H hpop hg
      have hlen : st.open_set.length = rest.length + 1 := heapPop_length hpop
      have hm1 : measureM (⟨rest, setInsert st.closed_set current.point,
          st.came_from, st.g_score⟩ : AState) + 1 = measureM st := by
        unfold measureM
        simp only
        omega
      have hfold : measureM (expandPoint goal b current.point
          ⟨rest, setInsert st.closed_set current.point, st.came_from, st.g_score⟩) ≤
          measureM (⟨rest, setInsert st.closed_set current.point,
            st.came_from, st.g_score⟩ : AState) ∧
          MidInv start goal current.point b (expandPoint goal b current.point
            ⟨rest, setInsert st.closed_set current.point, st.came_from, st.g_score⟩) := by
        unfold expandPoint
        refine foldl_pn_preserve goal b current.point
          (fun stx => measureM stx ≤ measureM (⟨rest, setInsert st.closed_set current.point,
            st.came_from, st.g_score⟩ : AState) ∧ MidInv start goal current.point b stx)
          (neighbors current.point) ?_ _ ⟨le_refl _, hmid⟩
        intro st1 n hn h1
        exact ⟨le_trans (pn_measure start goal current.point b st1 n hn h1.2) h1.1,
          midInv_pn start goal current.point b st1 n hn h1.2⟩
      omega

/-- The loop finishes within any fuel exceeding the measure. -/
theorem aStarGo_term (start goal : Coord) (b : List Coord) :
    ∀ (fuel : Nat) (st : AState), AInv start goal b st → measureM st < fuel →
      aStarGo goal b fuel st ≠ none := by
  intro fuel
  induction fuel with
  | zero => intro st _ hm; omega
  | succ fuel ih =>
    intro st H hm
    simp only [aStarGo]
    cases hpop : heapPop st.open_set with
    | none => simp
    | some pr =>
      obtain ⟨current, rest⟩ := pr
      simp only
      by_cases hg : current.point = goal
      · rw [if_pos hg]
        simp
      · rw [if_neg hg]
        have hstep := stepFn_eq_some goal b st hpop hg
        exact ih _ (stepFn_inv start goal b H hstep)
          (by have := stepFn_measure start goal b H hstep; omega)

theorem capOf_init_le (start : Coord) (p : Coord) :
    capOf (insertC [] start 0) p ≤ 66 := by
  unfold capOf
  cases h : lookupC (insertC [] start 0) p with
  | none => simp
  | some v =>
    simp only
    have := lookupC_mem h
    simp [insertC] at this
    omega

theorem measureM_init_lt (start goal : Coord) : measureM (initState start goal) < 5000 := by
  have hopen : (initState start goal).open_set.length = 1 := by
    show (heapPush [] ⟨start, 0, calculate_distance start goal⟩).length = 1
    rw [heapPush_nil]
    rfl
  have hsum : ((gridCells.map (capOf (initState start goal).g_score)).sum) ≤ 64 * 66 := by
    have hb : ∀ x ∈ gridCells.map (capOf (initState start goal).g_score), x ≤ 66 := by
      intro x hx
      obtain ⟨p, _, rfl⟩ := List.mem_map.mp hx
      exact capOf_init_le start p
    have hlen : (gridCells.map (capOf (initState start goal).g_score)).length = 64 := by
      simp [gridCells]
    have := List.sum_le_card_nsmul _ 66 hb
    rw [hlen] at this
    simpa using this
  unfold measureM
  omega

/-- `a_star` always terminates within its fuel: it never returns the
out-of-fuel marker, i.e. the model is total and agrees with the Rust loop. -/
theorem a_star_ne_none (start goal : Coord) (b : List Coord) :
    a_star start goal b ≠ none := by
  show aStarGo goal b aStarFuel (initState start goal) ≠ none
  exact aStarGo_term start goal b aStarFuel (initState start goal)
    (initState_inv start goal b) (measureM_init_lt start goal)

/-!  Top-level properties of `a_star`. -/

theorem a_star_some_path (start goal : Coord) (b : List Coord) (p : List Coord)
    (h : a_star start goal b = some (some p)) :
    p.head? = some start ∧ p.getLast? = some goal ∧ 1 ≤ p.length ∧
    List.Chain' (fun a c => c ∈ neighbors a ∧ c ∉ b) p :=
  aStarGo_some_path start goal b aStarFuel (initState start goal) p
    (initState_inv start goal b) h

theorem reachable_trans {b : List Coord} {s c d : Coord}
    (h1 : Reachable b s c) (h2 : Reachable b c d) : Reachable b s d := by
  induction h2 with
  | refl => exact h1
  | step _ hn hnb ih => exact Reachable.step ih hn hnb

theorem chain_reachable (b : List Coord) :
    ∀ (p : List Coord) (s g : Coord), p.head? = some s → p.getLast? = some g →
      List.Chain' (fun a c => c ∈ neighbors a ∧ c ∉ b) p → Reachable b s g := by
  intro p
  induction p with
  | nil => intro s g hs; simp at hs
  | cons x t ih =>
    intro s g hs hg hchain
    have hxs : x = s := by simpa using hs
    cases t with
    | nil =>
      have hxg : x = g := by simpa using hg
      rw [← hxs, ← hxg]
      exact Reachable.refl
    | cons y t1 =>
      have hstep : y ∈ neighbors x ∧ y ∉ b := (List.chain'_cons.mp hchain).1
      have hchain1 : List.Chain' (fun a c => c ∈ neighbors a ∧ c ∉ b) (y :: t1) :=
        (List.chain'_cons.mp hchain).2
      have hg1 : (y :: t1).getLast? = some g := by
        rw [List.getLast?_cons_cons] at hg
        exact hg
      have h2 := ih y g rfl hg1 hchain1
      rw [← hxs]
      exact reachable_trans (Reachable.step Reachable.refl hstep.1 hstep.2) h2

theorem a_star_none_iff (start goal : Coord) (b : List Coord) :
    a_star start goal b = some none ↔ ¬ Reachable b start goal := by
  constructor
  · intro h
    exact aStarGo_none_unreachable start goal b aStarFuel (initState start goal)
      (initState_inv start goal b) h
  · intro hr
    cases hres : a_star start goal b with
    | none => exact absurd hres (a_star_ne_none start goal b)
    | some r =>
      cases r with
      | none => rfl
      | some p =>
        obtain ⟨hs, hg, _, hchain⟩ := a_star_some_path start goal b p hres
        exact absurd (chain_reachable b p start goal hs hg hchain) hr

theorem a_star_reachable_some (start goal : Coord) (b : List Coord)
    (hr : Reachable b start goal) : ∃ p, a_star start goal b = some (some p) := by
  cases hres : a_star start goal b with
  | none => exact absurd hres (a_star_ne_none start goal b)
  | some r =>
    cases r with
    | none => exact absurd ((a_star_none_iff start goal b).mp hres) (by simpa using hr)
    | some p => exact ⟨p, rfl⟩

/-!  `g_score` monotonicity (one iteration, and along a whole run). -/

theorem pn_g_refine (goal cur : Coord) (b : List Coord) (base : AState) :
    ∀ (ns : List Coord) (st : AState),
      (∀ k v, lookupC base.g_score k = some v →
        ∃ v2, lookupC st.g_score k = some v2 ∧ v2 ≤ v) →
      ∀ k v, lookupC base.g_score k = some v →
        ∃ v2, lookupC (ns.foldl (processNeighbor goal b cur) st).g_score k = some v2 ∧
          v2 ≤ v := by
  intro ns
  refine foldl_pn_preserve goal b cur
    (fun stx => ∀ k v, lookupC base.g_score k = some v →
      ∃ v2, lookupC stx.g_score k = some v2 ∧ v2 ≤ v) ns ?_
  intro st1 n _ hP k v hbase
  obtain ⟨v2, hv2, hle⟩ := hP k v hbase
  rcases processNeighbor_trichotomy goal b cur st1 n with ⟨_, heq⟩ | ⟨_, _, _, heq⟩ |
    ⟨_, _, hup, heq⟩
  · rw [heq]; exact ⟨v2, hv2, hle⟩
  · rw [heq]; exact ⟨v2, hv2, hle⟩
  · rw [heq]
    by_cases hkn : k = n
    · subst hkn
      rcases hup with hnone | ⟨v1, hv1, hlt⟩
      · rw [hnone] at hv2
        exact absurd hv2 (by simp)
      · rw [hv1] at hv2
        obtain rfl := Option.some.inj hv2
        refine ⟨(lookupC st1.g_score cur).getD 0 + calculate_distance cur k, ?_, by omega⟩
        show lookupC (insertC st1.g_score k _) k = _
        rw [lookupC_insertC_self]
    · refine ⟨v2, ?_, hle⟩
      show lookupC (insertC st1.g_score n _) k = _
      rw [lookupC_insertC_ne hkn]
      exact hv2

theorem stepFn_g_refine (goal : Coord) (b : List Coord) {st st2 : AState}
    (h : stepFn goal b st = some st2) :
    ∀ k v, lookupC st.g_score k = some v →
      ∃ v2, lookupC st2.g_score k = some v2 ∧ v2 ≤ v := by
  cases hpop : heapPop st.open_set with
  | none =>
    simp only [stepFn, hpop] at h
    exact absurd h (by simp)
  | some pr =>
    obtain ⟨current, rest⟩ := pr
    simp only [stepFn, hpop] at h
    by_cases hg : current.point = goal
    · rw [if_pos hg] at h
      exact absurd h (by simp)
    · rw [if_neg hg] at h
      obtain rfl := Option.some.inj h
      intro k v hv
      exact pn_g_refine goal current.point b st (neighbors current.point)
        ⟨rest, setInsert st.closed_set current.point, st.came_from, st.g_score⟩
        (fun k1 v1 h1 => ⟨v1, h1, le_refl v1⟩) k v hv

theorem reaches_g_refine (goal : Coord) (b : List Coord) {st st2 : AState}
    (h : Reaches goal b st st2) :
    ∀ k v, lookupC st.g_score k = some v →
      ∃ v2, lookupC st2.g_score k = some v2 ∧ v2 ≤ v := by
  induction h with
  | refl => exact fun k v hv => ⟨v, hv, le_refl v⟩
  | tail _ hbc ih =>
    intro k v hv
    obtain ⟨v2, hv2, hle⟩ := ih k v hv
    obtain ⟨v3, hv3, hle2⟩ := stepFn_g_refine _ _ hbc k v2 hv2
    exact ⟨v3, hv3, by omega⟩

/-!  Re-expansion of a closed coordinate is a no-op. -/

theorem setInsert_mem_eq (l : List Coord) (c : Coord) (h : c ∈ l) :
    setInsert l c = l := by
  unfold setInsert
  rw [if_pos h]

theorem repop_noop (start goal : Coord) (b : List Coord) (st : AState)
    {current : Node} {rest : List Node}
    (H : AInv start goal b st) (_hpop : heapPop st.open_set = some (current, rest))
    (hcl : current.point ∈ st.closed_set) :
    expandPoint goal b current.point
      ⟨rest, setInsert st.closed_set current.point, st.came_from, st.g_score⟩ =
      ⟨rest, st.closed_set, st.came_from, st.g_score⟩ := by
  rw [setInsert_mem_eq _ _ hcl]
  unfold expandPoint
  refine foldl_pn_preserve goal b current.point
    (fun stx => stx = ⟨rest, st.closed_set, st.came_from, st.g_score⟩)
    (neighbors current.point) ?_ _ rfl
  intro st1 n hn h1
  subst h1
  rcases processNeighbor_trichotomy goal b current.point
    ⟨rest, st.closed_set, st.came_from, st.g_score⟩ n with ⟨_, heq⟩ | ⟨_, _, _, heq⟩ |
    ⟨hncl, hnb, hup, heq⟩
  · exact heq
  · exact heq
  · exfalso
    obtain ⟨v, hv, hle⟩ := H.closedExp current.point hcl n hn hnb hncl
    rcases hup with hnone | ⟨v1, hv1, hlt⟩
    · rw [hv] at hnone
      exact absurd hnone (by simp)
    · rw [hv] at hv1
      obtain rfl := Option.some.inj hv1
      simp only at hlt
      omega

/-!  Real-valued metric lemmas: the octile distance `(max-min) + min*√2` is
the length of a shortest 8-connected path. -/

theorem sqrt_two_bounds : (1:ℝ) ≤ Real.sqrt 2 ∧ Real.sqrt 2 ≤ 2 := by
  have hsq : Real.sqrt 2 ^ 2 = 2 := Real.sq_sqrt (by norm_num)
  have hnn : (0:ℝ) ≤ Real.sqrt 2 := Real.sqrt_nonneg 2
  constructor <;> nlinarith

theorem octReal_eq (x y : Nat) :
    octReal x y = ((max x y : ℕ) : ℝ) + (Real.sqrt 2 - 1) * ((min x y : ℕ) : ℝ) := by
  unfold octReal
  have hle : min x y ≤ max x y := min_le_max
  have hcast : ((max x y - min x y : ℕ) : ℝ) =
      ((max x y : ℕ) : ℝ) - ((min x y : ℕ) : ℝ) := Nat.cast_sub hle
  rw [hcast]
  ring

theorem octReal_nonneg (x y : Nat) : 0 ≤ octReal x y := by
  rw [octReal_eq]
  have h := sqrt_two_bounds
  have hx : (0:ℝ) ≤ ((max x y : ℕ) : ℝ) := Nat.cast_nonneg _
  have hy : (0:ℝ) ≤ ((min x y : ℕ) : ℝ) := Nat.cast_nonneg _
  nlinarith

theorem octReal_zero : octReal 0 0 = 0 := by
  rw [octReal_eq]
  simp

theorem octReal_mono {x y x1 y1 : Nat} (hx : x ≤ x1) (hy : y ≤ y1) :
    octReal x y ≤ octReal x1 y1 := by
  rw [octReal_eq, octReal_eq]
  have h2 := sqrt_two_bounds
  have hmaxn : max x y ≤ max x1 y1 := by omega
  have hminn : min x y ≤ min x1 y1 := by omega
  have hmax : ((max x y : ℕ) : ℝ) ≤ ((max x1 y1 : ℕ) : ℝ) := Nat.cast_le.mpr hmaxn
  have hmin : ((min x y : ℕ) : ℝ) ≤ ((min x1 y1 : ℕ) : ℝ) := Nat.cast_le.mpr hminn
  nlinarith

theorem octReal_ge_lin (x y : Nat) : (x : ℝ) + (Real.sqrt 2 - 1) * (y : ℝ) ≤ octReal x y := by
  rw [octReal_eq]
  have h2 := sqrt_two_bounds
  rcases le_total x y with h | h
  · have hmax : max x y = y := by omega
    have hmin : min x y = x := by omega
    rw [hmax, hmin]
    have hc : (x:ℝ) ≤ (y:ℝ) := Nat.cast_le.mpr h
    nlinarith
  · have hmax : max x y = x := by omega
    have hmin : min x y = y := by omega
    rw [hmax, hmin]

theorem octReal_comm (x y : Nat) : octReal x y = octReal y x := by
  rw [octReal_eq, octReal_eq, max_comm, min_comm]

theorem octReal_subadd (x1 y1 x2 y2 : Nat) :
    octReal (x1 + x2) (y1 + y2) ≤ octReal x1 y1 + octReal x2 y2 := by
  rcases le_total (y1 + y2) (x1 + x2) with h | h
  · have hmax : max (x1 + x2) (y1 + y2) = x1 + x2 := by omega
    have hmin : min (x1 + x2) (y1 + y2) = y1 + y2 := by omega
    rw [octReal_eq, hmax, hmin]
    have ha := octReal_ge_lin x1 y1
    have hb := octReal_ge_lin x2 y2
    have hc : ((x1 + x2 : ℕ) : ℝ) = (x1:ℝ) + (x2:ℝ) := by push_cast; ring
    have hd : ((y1 + y2 : ℕ) : ℝ) = (y1:ℝ) + (y2:ℝ) := by push_cast; ring
    rw [hc, hd]
    nlinarith
  · have hmax : max (x1 + x2) (y1 + y2) = y1 + y2 := by omega
    have hmin : min (x1 + x2) (y1 + y2) = x1 + x2 := by omega
    rw [octReal_eq, hmax, hmin]
    have ha : (y1 : ℝ) + (Real.sqrt 2 - 1) * (x1 : ℝ) ≤ octReal x1 y1 := by
      rw [octReal_comm]
      exact octReal_ge_lin y1 x1
    have hb : (y2 : ℝ) + (Real.sqrt 2 - 1) * (x2 : ℝ) ≤ octReal x2 y2 := by
      rw [octReal_comm]
      exact octReal_ge_lin y2 x2
    have hc : ((x1 + x2 : ℕ) : ℝ) = (x1:ℝ) + (x2:ℝ) := by push_cast; ring
    have hd : ((y1 + y2 : ℕ) : ℝ) = (y1:ℝ) + (y2:ℝ) := by push_cast; ring
    rw [hc, hd]
    nlinarith

theorem octileDist_triangle (p q r : Coord) :
    octileDist p r ≤ octileDist p q + octileDist q r := by
  unfold octileDist
  have hx : ((p.1 : Int) - (r.1 : Int)).natAbs ≤
      ((p.1 : Int) - (q.1 : Int)).natAbs + ((q.1 : Int) - (r.1 : Int)).natAbs := by
    have := Int.natAbs_add_le ((p.1 : Int) - (q.1 : Int)) ((q.1 : Int) - (r.1 : Int))
    have he : (p.1 : Int) - (q.1 : Int) + ((q.1 : Int) - (r.1 : Int)) =
        (p.1 : Int) - (r.1 : Int) := by ring
    rw [he] at this
    exact this
  have hy : ((p.2 : Int) - (r.2 : Int)).natAbs ≤
      ((p.2 : Int) - (q.2 : Int)).natAbs + ((q.2 : Int) - (r.2 : Int)).natAbs := by
    have := Int.natAbs_add_le ((p.2 : Int) - (q.2 : Int)) ((q.2 : Int) - (r.2 : Int))
    have he : (p.2 : Int) - (q.2 : Int) + ((q.2 : Int) - (r.2 : Int)) =
        (p.2 : Int) - (r.2 : Int) := by ring
    rw [he] at this
    exact this
  calc octReal ((p.1 : Int) - (r.1 : Int)).natAbs ((p.2 : Int) - (r.2 : Int)).natAbs
      ≤ octReal (((p.1 : Int) - (q.1 : Int)).natAbs + ((q.1 : Int) - (r.1 : Int)).natAbs)
          (((p.2 : Int) - (q.2 : Int)).natAbs + ((q.2 : Int) - (r.2 : Int)).natAbs) :=
        octReal_mono hx hy
    _ ≤ _ := octReal_subadd _ _ _ _

theorem octileDist_self (p : Coord) : octileDist p p = 0 := by
  unfold octileDist
  simp [octReal_zero]

theorem euclidDist_eq_octile_adj {p q : Coord} (h : chebDist p q = 1) :
    euclidDist p q = octileDist p q := by
  rcases p with ⟨x, y⟩
  rcases q with ⟨a, b⟩
  simp only [chebDist] at h
  unfold euclidDist octileDist
  have hx : ((x:ℝ) - (a:ℝ)) ^ 2 = ((((x : Int) - (a : Int)).natAbs : ℝ)) ^ 2 := by
    rw [Int.cast_natAbs]
    push_cast
    rw [sq_abs]
  have hy : ((y:ℝ) - (b:ℝ)) ^ 2 = ((((y : Int) - (b : Int)).natAbs : ℝ)) ^ 2 := by
    rw [Int.cast_natAbs]
    push_cast
    rw [sq_abs]
  simp only
  rw [hx, hy]
  have hcase : (((x : Int) - (a : Int)).natAbs = 1 ∧ ((y : Int) - (b : Int)).natAbs = 0) ∨
      (((x : Int) - (a : Int)).natAbs = 0 ∧ ((y : Int) - (b : Int)).natAbs = 1) ∨
      (((x : Int) - (a : Int)).natAbs = 1 ∧ ((y : Int) - (b : Int)).natAbs = 1) := by
    omega
  rcases hcase with ⟨h1, h2⟩ | ⟨h1, h2⟩ | ⟨h1, h2⟩ <;> rw [h1, h2] <;>
    rw [octReal_eq] <;> push_cast <;> norm_num

theorem pathLength_cons_cons (a c : Coord) (t : List Coord) :
    pathLength (a :: c :: t) = euclidDist a c + pathLength (c :: t) := rfl

theorem pathLength_ge_octile :
    ∀ (p : List Coord) (s g : Coord), p.head? = some s → p.getLast? = some g →
      List.Chain' (fun a c => chebDist a c = 1) p →
      octileDist s g ≤ pathLength p := by
  intro p
  induction p with
  | nil => intro s g hs; simp at hs
  | cons x t ih =>
    intro s g hs hg hchain
    have hxs : x = s := by simpa using hs
    cases t with
    | nil =>
      have hxg : x = g := by simpa using hg
      rw [← hxs, ← hxg, octileDist_self]
      simp [pathLength]
    | cons y t1 =>
      have hstep : chebDist x y = 1 := (List.chain'_cons.mp hchain).1
      have hchain1 : List.Chain' (fun a c => chebDist a c = 1) (y :: t1) :=
        (List.chain'_cons.mp hchain).2
      have hg1 : (y :: t1).getLast? = some g := by
        rw [List.getLast?_cons_cons] at hg
        exact hg
      have h2 := ih y g rfl hg1 hchain1
      rw [← hxs, pathLength_cons_cons]
      have htri := octileDist_triangle x y g
      have hadj := euclidDist_eq_octile_adj hstep
      linarith

theorem stepToward_cheb_lt {s g : Coord} (h : s ≠ g) :
    chebDist (stepToward s.1 g.1, stepToward s.2 g.2) g < chebDist s g := by
  rcases s with ⟨s1, s2⟩
  rcases g with ⟨g1, g2⟩
  simp only [ne_eq, Prod.mk.injEq, not_and] at h
  simp only [chebDist, stepToward]
  repeat' split
  all_goals omega

theorem stepToward_cheb_one {s g : Coord} (h : s ≠ g) :
    chebDist s (stepToward s.1 g.1, stepToward s.2 g.2) = 1 := by
  rcases s with ⟨s1, s2⟩
  rcases g with ⟨g1, g2⟩
  simp only [ne_eq, Prod.mk.injEq, not_and] at h
  simp only [chebDist, stepToward]
  repeat' split
  all_goals omega

theorem stepToward_lt8 {a c : Nat} (ha : a < 8) (hc : c < 8) : stepToward a c < 8 := by
  unfold stepToward
  repeat' split
  all_goals omega

theorem stepToward_natAbs (a c : Nat) :
    (a = c ∧ stepToward a c = a) ∨
    (a ≠ c ∧ ((a : Int) - (stepToward a c : Int)).natAbs = 1 ∧
      ((stepToward a c : Int) - c).natAbs = ((a : Int) - c).natAbs - 1 ∧
      1 ≤ ((a : Int) - c).natAbs) := by
  unfold stepToward
  by_cases h1 : a < c
  · simp only [if_pos h1]
    right
    exact ⟨by omega, by omega, by omega, by omega⟩
  · simp only [if_neg h1]
    by_cases h2 : c < a
    · simp only [if_pos h2]
      right
      exact ⟨by omega, by omega, by omega, by omega⟩
    · simp only [if_neg h2]
      left
      exact ⟨by omega, trivial⟩

theorem octReal_zero_left (k : Nat) : octReal 0 k = (k : ℝ) := by
  rw [octReal_eq]
  rw [Nat.max_eq_right (Nat.zero_le k), Nat.min_eq_left (Nat.zero_le k)]
  simp

theorem octReal_zero_right (k : Nat) : octReal k 0 = (k : ℝ) := by
  rw [octReal_comm]
  exact octReal_zero_left k

theorem octReal_one_one : octReal 1 1 = Real.sqrt 2 := by
  rw [octReal_eq]
  norm_num

theorem octReal_diag_succ {A B : Nat} (hA : 1 ≤ A) (hB : 1 ≤ B) :
    octReal A B = Real.sqrt 2 + octReal (A - 1) (B - 1) := by
  rw [octReal_eq, octReal_eq]
  have hmax : max A B = max (A - 1) (B - 1) + 1 := by omega
  have hmin : min A B = min (A - 1) (B - 1) + 1 := by omega
  rw [hmax, hmin]
  push_cast
  ring

/-- One greedy step toward the goal shortens the octile distance by exactly
the Euclidean length of the step. -/
theorem octile_step_decomp {s g : Coord} (h : s ≠ g) :
    octileDist s g =
      euclidDist s (stepToward s.1 g.1, stepToward s.2 g.2) +
      octileDist (stepToward s.1 g.1, stepToward s.2 g.2) g := by
  have hadj := euclidDist_eq_octile_adj (stepToward_cheb_one h)
  rw [hadj]
  rcases s with ⟨s1, s2⟩
  rcases g with ⟨g1, g2⟩
  simp only [ne_eq, Prod.mk.injEq, not_and] at h
  unfold octileDist
  simp only
  rcases stepToward_natAbs s1 g1 with ⟨hxeq, hxst⟩ | ⟨hxne, hx1, hx2, hx3⟩
  · rcases stepToward_natAbs s2 g2 with ⟨hyeq, _⟩ | ⟨hyne, hy1, hy2, hy3⟩
    · exact absurd hyeq (h hxeq)
    · have e2 : ((s1 : Int) - g1).natAbs = 0 := by omega
      have e3 : ((s1 : Int) - (stepToward s1 g1 : Int)).natAbs = 0 := by
        rw [hxst]
        omega
      have e5 : ((stepToward s1 g1 : Int) - g1).natAbs = 0 := by
        rw [hxst]
        omega
      rw [e2, e3, e5, hy1, hy2]
      rw [octReal_zero_left, octReal_zero_left, octReal_zero_left]
      have hc : ((((s2 : Int) - g2).natAbs - 1 : ℕ) : ℝ) =
          ((((s2 : Int) - g2).natAbs : ℕ) : ℝ) - 1 := by
        exact_mod_cast Nat.cast_sub hy3
      rw [hc]
      ring
  · rcases stepToward_natAbs s2 g2 with ⟨hyeq, hyst⟩ | ⟨hyne, hy1, hy2, hy3⟩
    · have e2 : ((s2 : Int) - g2).natAbs = 0 := by omega
      have e3 : ((s2 : Int) - (stepToward s2 g2 : Int)).natAbs = 0 := by
        rw [hyst]
        omega
      have e5 : ((stepToward s2 g2 : Int) - g2).natAbs = 0 := by
        rw [hyst]
        omega
      rw [e2, e3, e5, hx1, hx2]
      rw [octReal_zero_right, octReal_zero_right, octReal_zero_right]
      have hc : ((((s1 : Int) - g1).natAbs - 1 : ℕ) : ℝ) =
          ((((s1 : Int) - g1).natAbs : ℕ) : ℝ) - 1 := by
        exact_mod_cast Nat.cast_sub hx3
      rw [hc]
      ring
    · rw [hx1, hx2, hy1, hy2, octReal_one_one]
      rw [octReal_diag_succ hx3 hy3]

theorem chebDist_eq_zero_iff (p q : Coord) : chebDist p q = 0 ↔ p = q := by
  rcases p with ⟨x, y⟩
  rcases q with ⟨a, b⟩
  simp only [chebDist, Prod.mk.injEq]
  omega

theorem pathTo_refl (s : Coord) (hs1 : s.1 < 8) (hs2 : s.2 < 8) :
    (pathTo s s).head? = some s ∧ (pathTo s s).getLast? = some s ∧
    List.Chain' (fun a c => chebDist a c = 1) (pathTo s s) ∧
    (∀ c ∈ pathTo s s, c.1 < 8 ∧ c.2 < 8) ∧
    pathLength (pathTo s s) = octileDist s s := by
  rw [pathTo, if_pos rfl]
  refine ⟨rfl, rfl, by simp, ?_, ?_⟩
  · intro c hc1
    simp at hc1
    rw [hc1]
    exact ⟨hs1, hs2⟩
  · rw [octileDist_self]
    simp [pathLength]

theorem pathTo_spec : ∀ (n : Nat) (s g : Coord), chebDist s g ≤ n →
    s.1 < 8 → s.2 < 8 → g.1 < 8 → g.2 < 8 →
    (pathTo s g).head? = some s ∧ (pathTo s g).getLast? = some g ∧
    List.Chain' (fun a c => chebDist a c = 1) (pathTo s g) ∧
    (∀ c ∈ pathTo s g, c.1 < 8 ∧ c.2 < 8) ∧
    pathLength (pathTo s g) = octileDist s g := by
  intro n
  induction n with
  | zero =>
    intro s g hc hs1 hs2 hg1 hg2
    have hsg : s = g := (chebDist_eq_zero_iff s g).mp (by omega)
    subst hsg
    exact pathTo_refl s hs1 hs2
  | succ n ih =>
    intro s g hc hs1 hs2 hg1 hg2
    by_cases hsg : s = g
    · subst hsg
      exact pathTo_refl s hs1 hs2
    · rw [pathTo, if_neg hsg]
      have hlt := stepToward_cheb_lt hsg
      have hs1a : stepToward s.1 g.1 < 8 := stepToward_lt8 hs1 hg1
      have hs2a : stepToward s.2 g.2 < 8 := stepToward_lt8 hs2 hg2
      obtain ⟨hh, hl, hch, hm, hlen⟩ :=
        ih (stepToward s.1 g.1, stepToward s.2 g.2) g (by omega) hs1a hs2a hg1 hg2
      cases hpt : pathTo (stepToward s.1 g.1, stepToward s.2 g.2) g with
      | nil => rw [hpt] at hh; simp at hh
      | cons y t =>
        rw [hpt] at hh hl hch hm hlen
        have hy : y = (stepToward s.1 g.1, stepToward s.2 g.2) := by simpa using hh
        refine ⟨rfl, ?_, ?_, ?_, ?_⟩
        · rw [List.getLast?_cons_cons]
          exact hl
        · rw [List.chain'_cons]
          refine ⟨?_, hch⟩
          rw [hy]
          exact stepToward_cheb_one hsg
        · intro c hc1
          rcases List.mem_cons.mp hc1 with rfl | hc2
          · exact ⟨hs1, hs2⟩
          · exact hm c hc2
        · rw [pathLength_cons_cons, hlen, hy]
          exact (octile_step_decomp hsg).symm

/-- The octile distance is the length of a shortest valid 8-connected path. -/
theorem isShortest8_octile (s g : Coord) (hs1 : s.1 < 8) (hs2 : s.2 < 8)
    (hg1 : g.1 < 8) (hg2 : g.2 < 8) : IsShortest8 s g (octileDist s g) := by
  obtain ⟨hh, hl, hch, hm, hlen⟩ :=
    pathTo_spec (chebDist s g) s g (le_refl _) hs1 hs2 hg1 hg2
  constructor
  · exact ⟨pathTo s g, ⟨hh, hl, hch, hm⟩, hlen⟩
  · intro p hp
    exact pathLength_ge_octile p s g hp.1 hp.2.1 hp.2.2.1

theorem euclidDist_sqrt (p q : Coord) :
    euclidDist p q = Real.sqrt
      (((((q.1 : Int) - (p.1 : Int)) * ((q.1 : Int) - (p.1 : Int)) +
         ((q.2 : Int) - (p.2 : Int)) * ((q.2 : Int) - (p.2 : Int))).toNat : ℝ)) := by
  unfold euclidDist
  congr 1
  have hnn : (0:Int) ≤ ((q.1 : Int) - (p.1 : Int)) * ((q.1 : Int) - (p.1 : Int)) +
      ((q.2 : Int) - (p.2 : Int)) * ((q.2 : Int) - (p.2 : Int)) :=
    add_nonneg (mul_self_nonneg _) (mul_self_nonneg _)
  have h1 : (((((q.1 : Int) - (p.1 : Int)) * ((q.1 : Int) - (p.1 : Int)) +
      ((q.2 : Int) - (p.2 : Int)) * ((q.2 : Int) - (p.2 : Int))).toNat : ℕ) : ℝ) =
      ((((q.1 : Int) - (p.1 : Int)) * ((q.1 : Int) - (p.1 : Int)) +
      ((q.2 : Int) - (p.2 : Int)) * ((q.2 : Int) - (p.2 : Int)) : Int) : ℝ) := by
    exact_mod_cast Int.toNat_of_nonneg hnn
  rw [h1]
  push_cast
  ring

theorem sqrt_four : Real.sqrt 4 = 2 := by
  rw [show (4:ℝ) = 2 ^ 2 by norm_num]
  exact Real.sqrt_sq (by norm_num)

/-- `calculate_distance` is the Euclidean distance rounded to the nearest
integer: it differs from the exact distance by at most 1/2. -/
theorem calculate_distance_round (p q : Coord) :
    |(calculate_distance p q : ℝ) - euclidDist p q| ≤ 1 / 2 := by
  rw [calculate_distance_def, euclidDist_sqrt]
  have hs1 := natSqrt_le (4 * ((((q.1 : Int) - (p.1 : Int)) * ((q.1 : Int) - (p.1 : Int)) +
    ((q.2 : Int) - (p.2 : Int)) * ((q.2 : Int) - (p.2 : Int))).toNat))
  have hs2 := natSqrt_lt_succ (4 * ((((q.1 : Int) - (p.1 : Int)) * ((q.1 : Int) - (p.1 : Int)) +
    ((q.2 : Int) - (p.2 : Int)) * ((q.2 : Int) - (p.2 : Int))).toNat))
  generalize hd2 : ((((q.1 : Int) - (p.1 : Int)) * ((q.1 : Int) - (p.1 : Int)) +
    ((q.2 : Int) - (p.2 : Int)) * ((q.2 : Int) - (p.2 : Int))).toNat) = d2 at hs1 hs2 ⊢
  generalize hsn : natSqrt (4 * d2) = sN at hs1 hs2 ⊢
  have h4 : Real.sqrt (4 * (d2:ℝ)) = 2 * Real.sqrt (d2:ℝ) := by
    rw [Real.sqrt_mul (by norm_num : (0:ℝ) ≤ 4), sqrt_four]
  have hr1 : (sN : ℝ) ≤ 2 * Real.sqrt (d2:ℝ) := by
    rw [← h4]
    have hc : ((sN : ℝ)) ^ 2 ≤ 4 * (d2:ℝ) := by
      have : ((sN * sN : ℕ) : ℝ) ≤ ((4 * d2 : ℕ) : ℝ) := Nat.cast_le.mpr hs1
      push_cast at this
      nlinarith
    calc (sN : ℝ) = Real.sqrt ((sN:ℝ) ^ 2) := (Real.sqrt_sq (Nat.cast_nonneg sN)).symm
      _ ≤ Real.sqrt (4 * (d2:ℝ)) := Real.sqrt_le_sqrt hc
  have hr2 : 2 * Real.sqrt (d2:ℝ) ≤ (sN : ℝ) + 1 := by
    rw [← h4]
    have hc : 4 * (d2:ℝ) ≤ ((sN:ℝ) + 1) ^ 2 := by
      have hs2a : 4 * d2 < (sN + 1) * (sN + 1) := by
        simpa [Nat.succ_eq_add_one] using hs2
      have : ((4 * d2 : ℕ) : ℝ) ≤ (((sN + 1) * (sN + 1) : ℕ) : ℝ) :=
        Nat.cast_le.mpr (by omega)
      push_cast at this
      nlinarith
    calc Real.sqrt (4 * (d2:ℝ)) ≤ Real.sqrt (((sN:ℝ) + 1) ^ 2) := Real.sqrt_le_sqrt hc
      _ = (sN:ℝ) + 1 := Real.sqrt_sq (by positivity)
  have hcn1 : 2 * ((sN + 1) / 2) ≤ sN + 1 := by omega
  have hcn2 : sN ≤ 2 * ((sN + 1) / 2) := by omega
  have hcr1 : 2 * (((sN + 1) / 2 : ℕ) : ℝ) ≤ (sN : ℝ) + 1 := by exact_mod_cast hcn1
  have hcr2 : (sN : ℝ) ≤ 2 * (((sN + 1) / 2 : ℕ) : ℝ) := by exact_mod_cast hcn2
  rw [abs_le]
  constructor <;> nlinarith

/-!  Remaining helper lemmas for the claim theorems. -/

theorem heapPop_singleton (x : Node) : heapPop [x] = some (x, []) := rfl

theorem reaches_of_iterate (goal : Coord) (b : List Coord) :
    ∀ (k : Nat) (st st2 : AState), iterateO goal b k st = some st2 →
      Reaches goal b st st2 := by
  intro k
  induction k with
  | zero =>
    intro st st2 h
    simp only [iterateO] at h
    obtain rfl := Option.some.inj h
    exact Relation.ReflTransGen.refl
  | succ k ih =>
    intro st st2 h
    simp only [iterateO] at h
    cases hs : stepFn goal b st with
    | none => rw [hs] at h; simp at h
    | some st1 =>
      simp only [hs] at h
      exact Relation.ReflTransGen.head hs (ih st1 st2 h)

theorem chain'_tail_mem {R : Coord → Coord → Prop} :
    ∀ (p : List Coord), List.Chain' R p → ∀ q ∈ p.tail, ∃ a, R a q := by
  intro p
  induction p with
  | nil => intro _ q hq; simp at hq
  | cons x t ih =>
    intro hchain q hq
    cases t with
    | nil => simp at hq
    | cons y t1 =>
      rcases List.mem_cons.mp hq with rfl | hq1
      · exact ⟨x, (List.chain'_cons.mp hchain).1⟩
      · exact ih (List.chain'_cons.mp hchain).2 q hq1

theorem chain_cheb_of_neighbors {b : List Coord} {p : List Coord}
    (h : List.Chain' (fun a c => c ∈ neighbors a ∧ c ∉ b) p) :
    List.Chain' (fun a c => chebDist a c = 1) p :=
  List.Chain'.imp (fun _ _ hac => neighbors_cheb hac.1) h

theorem chain_neighbors_of_cheb :
    ∀ (p : List Coord), List.Chain' (fun a c => chebDist a c = 1) p →
      (∀ c ∈ p, c.1 < 8 ∧ c.2 < 8) →
      List.Chain' (fun a c => c ∈ neighbors a ∧ c ∉ ([] : List Coord)) p := by
  intro p
  induction p with
  | nil => intro _ _; simp
  | cons x t ih =>
    intro hchain hmem
    cases t with
    | nil => simp
    | cons y t1 =>
      rw [List.chain'_cons] at hchain ⊢
      refine ⟨⟨?_, by simp⟩, ?_⟩
      · rw [neighbors_iff]
        have hy := hmem y (List.mem_cons_of_mem _ (List.mem_cons_self _ _))
        exact ⟨hy.1, hy.2, hchain.1⟩
      · exact ih hchain.2 (fun c hc => hmem c (List.mem_cons_of_mem _ hc))

/-!  The claims. -/

/-- C6: for every grid coordinate, `neighbors` is exactly the set of up to 8
in-grid coordinates at Chebyshev distance 1, without duplicates and without
the coordinate itself (and, being a pure function, it has no side effects). -/
theorem claim_C6 : ∀ x y : Nat, x < 8 → y < 8 →
    ((x, y) ∉ neighbors (x, y)) ∧ (neighbors (x, y)).Nodup ∧
    (neighbors (x, y)).length ≤ 8 ∧
    (∀ a c : Nat, (a, c) ∈ neighbors (x, y) ↔
      (a < 8 ∧ c < 8 ∧ chebDist (x, y) (a, c) = 1)) := by
  intro x y _ _
  refine ⟨not_self_mem_neighbors _, neighbors_nodup _, ?_, fun a c => neighbors_iff _ _⟩
  have h := List.length_filterMap_le (fun d =>
    let new_x : Int := ((x : Int)) + d.1
    let new_y : Int := ((y : Int)) + d.2
    if 0 ≤ new_x ∧ new_x < 8 ∧ 0 ≤ new_y ∧ new_y < 8 then
      some (new_x.toNat, new_y.toNat)
    else none) neighborOffsets
  exact le_trans h (by decide)

theorem claim_C6_witness :
    ((3 : Nat) < 8 ∧ (4 : Nat) < 8) ∧
    (((4, 5) : Coord) ∈ neighbors (3, 4) ↔
      (4 < 8 ∧ 5 < 8 ∧ chebDist (3, 4) (4, 5) = 1)) :=
  ⟨by decide, (claim_C6 3 4 (by decide) (by decide)).2.2.2 4 5⟩

/-- C9: in the interactive mode, any direction token other than the eight
recognized ones leaves the player's position unchanged. -/
theorem claim_C9 : ∀ (g : Game) (d : String),
    d ∉ (["u", "d", "l", "r", "ul", "ur", "dl", "dr"] : List String) →
    (g.move_player d).player = g.player := by
  intro g d hd
  simp only [List.mem_cons, List.not_mem_nil, or_false, not_or] at hd
  obtain ⟨h1, h2, h3, h4, h5, h6, h7, h8⟩ := hd
  unfold Game.move_player Game.get_direction
  rw [if_neg h1, if_neg h2, if_neg h3, if_neg h4, if_neg h5, if_neg h6, if_neg h7,
    if_neg h8]
  dsimp only
  split
  · show (g.player.1, g.player.2) = g.player
    exact Prod.mk.eta
  · rfl

theorem claim_C9_witness :
    (("xyz" : String) ∉ (["u", "d", "l", "r", "ul", "ur", "dl", "dr"] : List String)) ∧
    (Game.new.move_player "xyz").player = Game.new.player :=
  ⟨by decide, claim_C9 Game.new "xyz" (by decide)⟩

/-- C2: whenever `a_star` returns a path, it starts at `start`, ends at
`goal`, and has length at least 1; in particular `a_star p p barriers`
returns the singleton `[p]`. -/
theorem claim_C2 :
    (∀ (s g : Coord) (b : List Coord) (p : List Coord),
      a_star s g b = some (some p) →
      p.head? = some s ∧ p.getLast? = some g ∧ 1 ≤ p.length) ∧
    (∀ (p0 : Coord) (b : List Coord), a_star p0 p0 b = some (some [p0])) := by
  constructor
  · intro s g b p h
    obtain ⟨h1, h2, h3, _⟩ := a_star_some_path s g b p h
    exact ⟨h1, h2, h3⟩
  · intro p0 b
    show aStarGo p0 b aStarFuel (initState p0 p0) = some (some [p0])
    have hop : (initState p0 p0).open_set = [⟨p0, 0, calculate_distance p0 p0⟩] :=
      heapPush_nil _
    rw [show aStarFuel = 4999 + 1 from rfl, aStarGo, hop, heapPop_singleton]
    show (if p0 = p0 then some (some (reconstruct_path (initState p0 p0).came_from p0))
      else _) = some (some [p0])
    rw [if_pos rfl]
    rfl

theorem claim_C2_witness :
    a_star (0, 0) (1, 1) [] = some (some [(0, 0), (1, 1)]) ∧
    (([(0, 0), (1, 1)] : List Coord).head? = some (0, 0) ∧
      ([(0, 0), (1, 1)] : List Coord).getLast? = some (1, 1) ∧
      1 ≤ ([(0, 0), (1, 1)] : List Coord).length) ∧
    a_star (2, 2) (2, 2) [(1, 1)] = some (some [(2, 2)]) :=
  ⟨by decide, claim_C2.1 (0, 0) (1, 1) [] [(0, 0), (1, 1)] (by decide),
    claim_C2.2 (2, 2) [(1, 1)]⟩

/-- C3: every two consecutive coordinates of a returned path are 8-connected
neighbors, i.e. at Chebyshev distance exactly 1. -/
theorem claim_C3 : ∀ (s g : Coord) (b : List Coord) (p : List Coord),
    a_star s g b = some (some p) →
    List.Chain' (fun a c => chebDist a c = 1) p := by
  intro s g b p h
  exact chain_cheb_of_neighbors (a_star_some_path s g b p h).2.2.2

theorem claim_C3_witness :
    a_star (0, 0) (1, 1) [] = some (some [(0, 0), (1, 1)]) ∧
    List.Chain' (fun a c => chebDist a c = 1) [((0, 0) : Coord), (1, 1)] :=
  ⟨by decide, claim_C3 (0, 0) (1, 1) [] [(0, 0), (1, 1)] (by decide)⟩

/-- C10: no coordinate of a returned path other than possibly the first lies
on a barrier. -/
theorem claim_C10 : ∀ (s g : Coord) (b : List Coord) (p : List Coord),
    a_star s g b = some (some p) →
    ∀ q ∈ p.tail, q ∉ b := by
  intro s g b p h q hq
  obtain ⟨a, ha⟩ := chain'_tail_mem p (a_star_some_path s g b p h).2.2.2 q hq
  exact ha.2

theorem claim_C10_witness :
    a_star (1, 3) (4, 0) [(0, 3), (2, 2)] =
      some (some [(1, 3), (1, 2), (2, 1), (3, 1), (4, 0)]) ∧
    ((2, 1) : Coord) ∈ ([(1, 3), (1, 2), (2, 1), (3, 1), (4, 0)] : List Coord).tail ∧
    ((2, 1) : Coord) ∉ ([(0, 3), (2, 2)] : List Coord) :=
  ⟨by decide, by decide,
    claim_C10 (1, 3) (4, 0) [(0, 3), (2, 2)] [(1, 3), (1, 2), (2, 1), (3, 1), (4, 0)]
      (by decide) (2, 1) (by decide)⟩

/-- C4: `a_star start goal barriers` returns `None` (modelled `some none`)
exactly when the goal is unreachable from the start through non-barrier
cells by 8-connected moves, and a reachable goal always yields some path. -/
theorem claim_C4 : ∀ (s g : Coord) (b : List Coord),
    (a_star s g b = some none ↔ ¬ Reachable b s g) ∧
    (Reachable b s g → ∃ p, a_star s g b = some (some p)) := by
  intro s g b
  exact ⟨a_star_none_iff s g b, a_star_reachable_some s g b⟩

theorem claim_C4_witness :
    a_star (0, 0) (5, 5) [(0, 1), (1, 0), (1, 1)] = some none ∧
    ¬ Reachable [(0, 1), (1, 0), (1, 1)] (0, 0) (5, 5) :=
  ⟨by decide, (claim_C4 (0, 0) (5, 5) [(0, 1), (1, 0), (1, 1)]).1.mp (by decide)⟩

/-- C7: a coordinate's `g_score` entry is monotonically non-increasing over a
run of the loop, and any actual overwrite of an existing entry by the
neighbor-processing step stores a strictly smaller value. -/
theorem claim_C7 :
    (∀ (goal : Coord) (b : List Coord) (st st2 : AState), Reaches goal b st st2 →
      ∀ k v, lookupC st.g_score k = some v →
        ∃ v2, lookupC st2.g_score k = some v2 ∧ v2 ≤ v) ∧
    (∀ (goal cur : Coord) (b : List Coord) (st : AState) (n : Coord) (v : Nat),
      lookupC st.g_score n = some v →
      processNeighbor goal b cur st n ≠ st →
      ∃ v2, lookupC (processNeighbor goal b cur st n).g_score n = some v2 ∧
        v2 < v) := by
  constructor
  · intro goal b st st2 h
    exact reaches_g_refine goal b h
  · intro goal cur b st n v hv hne
    rcases processNeighbor_trichotomy goal b cur st n with ⟨_, heq⟩ | ⟨_, _, _, heq⟩ |
      ⟨_, _, hup, heq⟩
    · exact absurd heq hne
    · exact absurd heq hne
    · rcases hup with hnone | ⟨v1, hv1, hlt⟩
      · rw [hv] at hnone
        exact absurd hnone (by simp)
      · rw [hv] at hv1
        obtain rfl := Option.some.inj hv1
        refine ⟨(lookupC st.g_score cur).getD 0 + calculate_distance cur n, ?_, hlt⟩
        rw [heq]
        show lookupC (insertC st.g_score n _) n = _
        rw [lookupC_insertC_self]

theorem claim_C7_witness :
    (∃ v2, lookupC (initState (0, 0) (1, 1)).g_score (0, 0) = some v2 ∧ v2 ≤ 0) ∧
    (∃ v2, lookupC (processNeighbor (1, 1) [] (0, 0)
        ⟨[], [], [], [((1, 1), 5)]⟩ (1, 1)).g_score (1, 1) = some v2 ∧ v2 < 5) :=
  ⟨claim_C7.1 (1, 1) [] (initState (0, 0) (1, 1)) (initState (0, 0) (1, 1))
      Relation.ReflTransGen.refl (0, 0) 0 (by decide),
    claim_C7.2 (1, 1) (0, 0) [] ⟨[], [], [], [((1, 1), 5)]⟩ (1, 1) 5
      (by decide) (by decide)⟩

/-- C8: popping an already-closed coordinate is a no-op: at any reachable
loop state, if the heap's top coordinate is already in the closed set, the
iteration changes nothing but removing that node from the heap — no
`g_score` or `came_from` entry is touched and nothing is pushed. -/
theorem claim_C8 : ∀ (s g : Coord) (b : List Coord) (st : AState)
    (current : Node) (rest : List Node),
    Reaches g b (initState s g) st →
    heapPop st.open_set = some (current, rest) →
    current.point ∈ st.closed_set →
    stepFn g b st = some ⟨rest, st.closed_set, st.came_from, st.g_score⟩ := by
  intro s g b st current rest hr hpop hcl
  have H := reaches_inv s g b hr (initState_inv s g b)
  have hg : current.point ≠ g := fun he => H.goalClosed (he ▸ hcl)
  rw [stepFn_eq_some g b st hpop hg, repop_noop s g b st H hpop hcl]

theorem claim_C8_witness :
    iterateO (4, 0) [(0, 3), (2, 2)] 13 (initState (1, 3) (4, 0)) = some repopState ∧
    heapPop repopState.open_set = some (repopNode, repopRest) ∧
    repopNode.point ∈ repopState.closed_set ∧
    stepFn (4, 0) [(0, 3), (2, 2)] repopState =
      some ⟨repopRest, repopState.closed_set, repopState.came_from,
        repopState.g_score⟩ :=
  ⟨by decide, by decide, by decide,
    claim_C8 (1, 3) (4, 0) [(0, 3), (2, 2)] repopState repopNode repopRest
      (reaches_of_iterate (4, 0) [(0, 3), (2, 2)] 13 _ _ (by decide))
      (by decide) (by decide)⟩

/-- C5 counterexample: the cost of a diagonal step is not the exact Euclidean
distance: `calculate_distance (0,0) (1,1) = 1`, but the Euclidean distance is
`√2 ≈ 1.414` (the source rounds `sqrt` to the nearest integer). -/
theorem claim_C5_counterexample :
    chebDist (0, 0) (1, 1) = 1 ∧
    (calculate_distance (0, 0) (1, 1) : ℝ) ≠ euclidDist (0, 0) (1, 1) := by
  refine ⟨by decide, ?_⟩
  have hcd : calculate_distance (0, 0) (1, 1) = 1 := by decide
  have he : euclidDist (0, 0) (1, 1) = Real.sqrt 2 := by
    unfold euclidDist
    dsimp only
    norm_num
  rw [hcd, he]
  intro h
  have hsq : Real.sqrt 2 ^ 2 = 2 := Real.sq_sqrt (by norm_num)
  rw [← h] at hsq
  norm_num at hsq

/-- C5 (amended): the edge cost / heuristic `calculate_distance` is the
Euclidean distance rounded to the nearest integer — within 1/2 of the exact
Euclidean distance, and equal to 1 for every adjacent (Chebyshev-1) pair, so
diagonal and orthogonal steps cost the same. -/
theorem claim_C5 : ∀ (p q : Coord),
    |(calculate_distance p q : ℝ) - euclidDist p q| ≤ 1 / 2 ∧
    (chebDist p q = 1 → calculate_distance p q = 1) := by
  intro p q
  exact ⟨calculate_distance_round p q, fun h => calculate_distance_one h⟩

theorem claim_C5_witness :
    chebDist (0, 0) (0, 1) = 1 ∧ calculate_distance (0, 0) (0, 1) = 1 :=
  ⟨by decide, (claim_C5 (0, 0) (0, 1)).2 (by decide)⟩

/-- C1 counterexample: on the empty grid, `a_star (0,7) (2,7) []` returns the
path `[(0,7), (1,6), (2,7)]` of Euclidean length `2√2 ≈ 2.83`, although the
true shortest 8-connected Euclidean distance between `(0,7)` and `(2,7)` is
`2` (rounded edge costs make diagonal and orthogonal steps tie). -/
theorem claim_C1_counterexample :
    a_star (0, 7) (2, 7) [] = some (some [(0, 7), (1, 6), (2, 7)]) ∧
    IsShortest8 (0, 7) (2, 7) 2 ∧
    pathLength [(0, 7), (1, 6), (2, 7)] ≠ 2 := by
  refine ⟨by decide, ?_, ?_⟩
  · have ho : octileDist (0, 7) (2, 7) = 2 := by
      unfold octileDist
      have h1 : ((((0, 7) : Coord).1 : Int) - (((2, 7) : Coord).1 : Int)).natAbs = 2 :=
        by decide
      have h2 : ((((0, 7) : Coord).2 : Int) - (((2, 7) : Coord).2 : Int)).natAbs = 0 :=
        by decide
      rw [h1, h2]
      unfold octReal
      norm_num
    rw [← ho]
    exact isShortest8_octile (0, 7) (2, 7) (by norm_num) (by norm_num)
      (by norm_num) (by norm_num)
  · have he1 : euclidDist (0, 7) (1, 6) = Real.sqrt 2 := by
      unfold euclidDist
      dsimp only
      norm_num
    have he2 : euclidDist (1, 6) (2, 7) = Real.sqrt 2 := by
      unfold euclidDist
      dsimp only
      norm_num
    have hL : pathLength [(0, 7), (1, 6), (2, 7)] = 2 * Real.sqrt 2 := by
      rw [pathLength_cons_cons, pathLength_cons_cons, he1, he2]
      show Real.sqrt 2 + (Real.sqrt 2 + 0) = 2 * Real.sqrt 2
      ring
    rw [hL]
    intro h
    have hsq : Real.sqrt 2 ^ 2 = 2 := Real.sq_sqrt (by norm_num)
    nlinarith [hsq, h]

/-- C1 (amended): for every pair of grid coordinates and an empty obstacle
set, the true shortest 8-connected Euclidean distance is the octile distance,
`a_star` always returns some path from start to goal, and that path's exact
Euclidean length is at least that optimum (the counterexample above shows
equality can fail). -/
theorem claim_C1 : ∀ (s g : Coord), s ∈ gridCells → g ∈ gridCells →
    IsShortest8 s g (octileDist s g) ∧
    ∃ p, a_star s g [] = some (some p) ∧
      p.head? = some s ∧ p.getLast? = some g ∧
      octileDist s g ≤ pathLength p := by
  intro s g hs hg
  obtain ⟨hs1, hs2⟩ := (mem_gridCells s).mp hs
  obtain ⟨hg1, hg2⟩ := (mem_gridCells g).mp hg
  refine ⟨isShortest8_octile s g hs1 hs2 hg1 hg2, ?_⟩
  obtain ⟨hh, hl, hch, hm, _⟩ :=
    pathTo_spec (chebDist s g) s g (le_refl _) hs1 hs2 hg1 hg2
  have hreach : Reachable [] s g :=
    chain_reachable [] (pathTo s g) s g hh hl
      (chain_neighbors_of_cheb (pathTo s g) hch hm)
  obtain ⟨p, hp⟩ := a_star_reachable_some s g [] hreach
  obtain ⟨h1, h2, _, h4⟩ := a_star_some_path s g [] p hp
  exact ⟨p, hp, h1, h2,
    pathLength_ge_octile p s g h1 h2 (chain_cheb_of_neighbors h4)⟩

theorem claim_C1_witness :
    ((0, 0) : Coord) ∈ gridCells ∧ ((1, 2) : Coord) ∈ gridCells ∧
    (IsShortest8 (0, 0) (1, 2) (octileDist (0, 0) (1, 2)) ∧
      ∃ p, a_star (0, 0) (1, 2) [] = some (some p) ∧
        p.head? = some ((0, 0) : Coord) ∧ p.getLast? = some ((1, 2) : Coord) ∧
        octileDist (0, 0) (1, 2) ≤ pathLength p) :=
  ⟨by decide, by decide, claim_C1 (0, 0) (1, 2) (by decide) (by decide)⟩
